import Mathlib

/-!
Verification development for the invoice-OCR extraction engine
(`src/invoice_parser.py` and `src/text_parser.py`).

The Python code is shallowly embedded: strings are `List Char`, the regular
expressions of the source are rendered as small backtracking matchers built
from combinators whose candidate lists enumerate the regex engine's
alternatives in exactly the preference order of Python's `re` module
(leftmost search position first; within a position, greedy quantifiers
longest-first, lazy quantifiers shortest-first, alternatives left-to-right).
All character classes follow the ASCII semantics of the source's patterns.
-/

set_option maxRecDepth 4000

namespace PyStr

/-- ASCII whitespace as matched by Python's `\s` and stripped by `str.strip()`. -/
def pyWs (c : Char) : Bool :=
  c = ' ' || c = '\t' || c = '\n' || c = '\x0d' || c = '\x0b' || c = '\x0c'

/-- Word characters for Python's `\b` boundary (`\w` = alphanumeric or underscore). -/
def wordChar (c : Char) : Bool :=
  c.isAlpha || c.isDigit || c = '_'

/-- Line-boundary characters recognized by Python's `str.splitlines`. -/
def lineBreak (c : Char) : Bool :=
  c = '\n' || c = '\x0d' || c = '\x0b' || c = '\x0c' ||
  c = '\x1c' || c = '\x1d' || c = '\x1e' || c = '\x85' ||
  c = Char.ofNat 0x2028 || c = Char.ofNat 0x2029

/-- Lowercase a character list, as Python's `str.lower` on ASCII text. -/
def lowerL (l : List Char) : List Char := l.map Char.toLower

/-- Strip characters satisfying `p` from both ends (models `str.strip(chars)`). -/
def stripSet (p : Char → Bool) (l : List Char) : List Char :=
  ((l.dropWhile p).reverse.dropWhile p).reverse

/-- Models Python `str.strip()` (no argument): remove whitespace from both ends. -/
def pyStrip (l : List Char) : List Char := stripSet pyWs l

theorem length_dropWhile_le (p : α → Bool) (l : List α) :
    (l.dropWhile p).length ≤ l.length := by
  induction l with
  | nil => simp
  | cons c t ih =>
    cases h : p c
    · simp [List.dropWhile, h]
    · simp only [List.dropWhile, h, List.length_cons]
      omega

/-- Worker for `collapseRuns`: `inRun` records whether the previous character
belonged to a run being collapsed. -/
def collapseGo (p : Char → Bool) (inRun : Bool) : List Char → List Char
  | [] => []
  | c :: rest =>
    if p c then
      if inRun then collapseGo p true rest
      else ' ' :: collapseGo p true rest
    else c :: collapseGo p false rest

/-- Replace every maximal run of characters satisfying `p` by a single space.
Models `re.sub(r"\s+", " ", s)` (with `p := pyWs`) and
`re.sub(r"[ \t]+", " ", s)` (with `p` spaces and tabs). -/
def collapseRuns (p : Char → Bool) (l : List Char) : List Char :=
  collapseGo p false l

/-- Models Python `str.splitlines`: accumulate the current line (reversed) and
split at each line boundary; `\r\n` counts as one boundary, and a trailing
boundary produces no empty final line. -/
def splitLinesGo (cur : List Char) : List Char → List (List Char)
  | [] => if cur.isEmpty then [] else [cur.reverse]
  | c :: rest =>
    if c = '\x0d' then
      match rest with
      | '\n' :: rest2 => cur.reverse :: splitLinesGo [] rest2
      | [] => [cur.reverse]
      | c2 :: rest2 => cur.reverse :: splitLinesGo [] (c2 :: rest2)
    else if lineBreak c then cur.reverse :: splitLinesGo [] rest
    else splitLinesGo (c :: cur) rest

/-- Models Python `str.splitlines`. -/
def pySplitLines (l : List Char) : List (List Char) := splitLinesGo [] l

/-- `subseqAt needle hay`: `needle` is a prefix of `hay` (character equality). -/
def subseqAt : List Char → List Char → Bool
  | [], _ => true
  | _ :: _, [] => false
  | a :: as, b :: bs => a == b && subseqAt as bs

/-- `containsSub needle hay`: `needle` occurs as a contiguous substring of `hay`.
Models Python's `needle in hay`. -/
def containsSub (needle : List Char) : List Char → Bool
  | [] => subseqAt needle []
  | c :: t => subseqAt needle (c :: t) || containsSub needle t

/-- `endsWithL suffix l`: models Python's `str.endswith`. -/
def endsWithL (suffix l : List Char) : Bool :=
  subseqAt suffix.reverse l.reverse

/-- First index in a list whose element satisfies `p` (models the Python
`for i, line in enumerate(...)` search loops with `break`). -/
def findIdxO (p : α → Bool) : List α → Option Nat
  | [] => none
  | a :: as => if p a then some 0 else (findIdxO p as).map (· + 1)

/-- Truthiness of Python `x or default` for an optional string `x`. -/
def pyOr (a : Option String) (b : String) : String :=
  match a with
  | some s => if s = "" then b else s
  | none => b

/-- Python `x or y` where both sides are optional strings. -/
def pyOrOpt (a b : Option String) : Option String :=
  match a with
  | some s => if s = "" then b else some s
  | none => b

/-! ### Basic lemmas about the string-operation models -/

theorem subseqAt_refl_append : ∀ (n b : List Char), subseqAt n (n ++ b) = true := by
  intro n
  induction n with
  | nil => intro b; rfl
  | cons a as ih => intro b; simp [subseqAt, ih]

theorem containsSub_of_subseqAt : ∀ (h n : List Char),
    subseqAt n h = true → containsSub n h = true := by
  intro h n hs
  cases h with
  | nil =>
    cases n with
    | nil => rfl
    | cons a as => simp [subseqAt] at hs
  | cons c t =>
    unfold containsSub
    rw [hs]
    rfl

theorem containsSub_append_left : ∀ (a n b : List Char),
    containsSub n (a ++ (n ++ b)) = true := by
  intro a
  induction a with
  | nil =>
    intro n b
    rw [List.nil_append]
    exact containsSub_of_subseqAt _ _ (subseqAt_refl_append n b)
  | cons x xs ih =>
    intro n b
    rw [List.cons_append]
    unfold containsSub
    rw [ih n b]
    simp

theorem containsSub_exists : ∀ (h n : List Char),
    containsSub n h = true → ∃ a b, h = a ++ n ++ b := by
  intro h
  induction h with
  | nil =>
    intro n hc
    cases n with
    | nil => exact ⟨[], [], rfl⟩
    | cons c t => simp [containsSub, subseqAt] at hc
  | cons x xs ih =>
    intro n hc
    simp only [containsSub, Bool.or_eq_true] at hc
    rcases hc with hc | hc
    · -- prefix match at the front
      have : ∃ b, x :: xs = n ++ b := by
        clear ih
        induction n generalizing x xs with
        | nil => exact ⟨x :: xs, rfl⟩
        | cons a as ihn =>
          simp only [subseqAt, Bool.and_eq_true, beq_iff_eq] at hc
          cases xs with
          | nil =>
            cases as with
            | nil => exact ⟨[], by simp [hc.1]⟩
            | cons a2 as2 => simp [subseqAt] at hc
          | cons y ys =>
            obtain ⟨b, hb⟩ := ihn y ys hc.2
            exact ⟨b, by simp [hc.1, hb]⟩
      obtain ⟨b, hb⟩ := this
      exact ⟨[], b, by simp [hb]⟩
    · obtain ⟨a, b, hab⟩ := ih n hc
      exact ⟨x :: a, b, by simp [hab]⟩

theorem containsSub_of_exists {h n : List Char} (a b : List Char)
    (he : h = a ++ n ++ b) : containsSub n h = true := by
  subst he
  rw [List.append_assoc]
  exact containsSub_append_left a n b

/-- Substring containment is transitive through substring decomposition. -/
theorem containsSub_trans {n m h : List Char}
    (h1 : containsSub n m = true) (h2 : containsSub m h = true) :
    containsSub n h = true := by
  obtain ⟨a, b, hab⟩ := containsSub_exists m n h1
  obtain ⟨c, d, hcd⟩ := containsSub_exists h m h2
  subst hab
  exact containsSub_of_exists (c ++ a) (b ++ d) (by simp [hcd])

theorem lowerL_append (a b : List Char) : lowerL (a ++ b) = lowerL a ++ lowerL b := by
  simp [lowerL]

theorem dropWhile_dropWhile (p : Char → Bool) (l : List Char) :
    (l.dropWhile p).dropWhile p = l.dropWhile p := by
  cases h : l.dropWhile p with
  | nil => simp
  | cons c t =>
    have hc : p c = false := by
      have := List.head?_dropWhile_not p l
      rw [h] at this
      simpa using this
    simp [List.dropWhile, hc]

theorem getLast_eq_of_suffix {l m : List Char} (h : l <:+ m) (hne : l ≠ []) :
    m.getLast? = l.getLast? := by
  obtain ⟨t, ht⟩ := h
  subst ht
  exact List.getLast?_append_of_ne_nil t hne

/-- The head of a stripped list does not satisfy the stripped predicate. -/
theorem stripSet_head (p : Char → Bool) (l : List Char) {c : Char}
    (h : (stripSet p l).head? = some c) : p c = false := by
  unfold stripSet at h
  set m := l.dropWhile p with hm
  set k := m.reverse.dropWhile p with hk
  have hkne : k ≠ [] := by
    intro hke
    rw [hke] at h
    simp at h
  -- head of k.reverse = last of k = last of m.reverse = head of m
  have hsuff : k <:+ m.reverse := by rw [hk]; exact List.dropWhile_suffix p
  have hlast : (m.reverse).getLast? = k.getLast? := getLast_eq_of_suffix hsuff hkne
  have h1 : k.reverse.head? = some c := h
  rw [List.head?_reverse] at h1
  have h2 : (m.reverse).getLast? = some c := by rw [hlast, h1]
  rw [List.getLast?_reverse] at h2
  have := List.head?_dropWhile_not p l
  rw [← hm, h2] at this
  simpa using this

/-- The last element of a stripped list does not satisfy the stripped predicate. -/
theorem stripSet_last (p : Char → Bool) (l : List Char) {c : Char}
    (h : (stripSet p l).getLast? = some c) : p c = false := by
  unfold stripSet at h
  rw [List.getLast?_reverse] at h
  have := List.head?_dropWhile_not p (l.dropWhile p).reverse
  rw [h] at this
  simpa using this

/-- Stripping a list whose first and last characters already fail `p` does nothing. -/
theorem stripSet_eq_self_of_ends (p : Char → Bool) (m : List Char)
    (hh : ∀ c, m.head? = some c → p c = false)
    (hl : ∀ c, m.getLast? = some c → p c = false) : stripSet p m = m := by
  unfold stripSet
  have h1 : m.dropWhile p = m := by
    cases m with
    | nil => rfl
    | cons c t => simp [List.dropWhile, hh c (by rfl)]
  rw [h1]
  have h2 : m.reverse.dropWhile p = m.reverse := by
    cases hr : m.reverse with
    | nil => rfl
    | cons d s =>
      have hd : m.getLast? = some d := by
        rw [← List.head?_reverse, hr]
        rfl
      simp [List.dropWhile, hl d hd]
  rw [h2, List.reverse_reverse]

/-- `pyStrip` (and any `stripSet`) is idempotent. -/
theorem stripSet_idem (p : Char → Bool) (l : List Char) :
    stripSet p (stripSet p l) = stripSet p l :=
  stripSet_eq_self_of_ends p (stripSet p l)
    (fun _ h => stripSet_head p l h)
    (fun _ h => stripSet_last p l h)

/-- A list whose strip is nonempty iff it has a char failing `p`. -/
theorem stripSet_eq_nil_iff (p : Char → Bool) (l : List Char) :
    stripSet p l = [] ↔ ∀ c ∈ l, p c = true := by
  unfold stripSet
  constructor
  · intro h c hc
    have h1 : (l.dropWhile p).reverse.dropWhile p = [] := by
      cases hh : (l.dropWhile p).reverse.dropWhile p with
      | nil => rfl
      | cons a t => rw [hh] at h; simp at h
    rw [List.dropWhile_eq_nil_iff] at h1
    by_cases hmem : c ∈ l.dropWhile p
    · exact h1 c (by simpa using hmem)
    · -- c is in the dropped prefix, so p c
      have := List.takeWhile_append_dropWhile p l
      rw [← this] at hc
      rcases List.mem_append.mp hc with hc1 | hc2
      · exact List.mem_takeWhile_imp hc1
      · exact absurd hc2 hmem
  · intro h
    have h1 : l.dropWhile p = [] := by
      rw [List.dropWhile_eq_nil_iff]
      exact h
    simp [h1]

theorem stripSet_ne_nil_of_mem {p : Char → Bool} {l : List Char} {c : Char}
    (hc : c ∈ l) (hpc : p c = false) : stripSet p l ≠ [] := by
  intro h
  rw [stripSet_eq_nil_iff] at h
  rw [h c hc] at hpc
  exact absurd hpc (by simp)

/-- Stripping a list with no strippable characters is the identity. -/
theorem stripSet_eq_self_of_none {p : Char → Bool} {l : List Char}
    (h : ∀ c ∈ l, p c = false) : stripSet p l = l := by
  unfold stripSet
  have h1 : l.dropWhile p = l := by
    cases l with
    | nil => rfl
    | cons c t => simp [List.dropWhile, h c (by simp)]
  rw [h1]
  have h2 : l.reverse.dropWhile p = l.reverse := by
    cases hr : l.reverse with
    | nil => rfl
    | cons c t =>
      have hc : c ∈ l := by
        have : c ∈ l.reverse := by rw [hr]; simp
        simpa using this
      simp [List.dropWhile, h c hc]
  rw [h2, List.reverse_reverse]

end PyStr


namespace PyStr

/-!
### Backtracking matcher combinators

A matcher (`M`) maps an input suffix to the list of `(consumed, rest)`
candidates in the preference order of Python's backtracking regex engine.
`Option`-producing wrappers take the head of the candidate list, i.e. the
match the engine actually commits to.
-/

/-- A matcher candidate: consumed characters and the remaining suffix. -/
abbrev Cand := List Char × List Char

/-- A matcher over a suffix of the input. -/
abbrev M := List Char → List Cand

/-- Match a single character of a class (regex `[...]` or `\d` etc.). -/
def mCls (p : Char → Bool) : M
  | c :: r => if p c then [([c], r)] else []
  | [] => []

/-- Match a literal, case-insensitively (all source regexes use `re.IGNORECASE`). -/
def mLit (kw : List Char) : M := fun cs =>
  if (cs.take kw.length).length = kw.length ∧
      ∀ w ∈ (cs.take kw.length).zip kw, w.1.toLower = w.2.toLower then
    [(cs.take kw.length, cs.drop kw.length)]
  else []

/-- Greedy repetition of a character class, at least `lo` times
(regex `[...]* / [...]+`): candidates longest-first. -/
def mRepGe (p : Char → Bool) (lo : Nat) : M := fun cs =>
  let n := (cs.takeWhile p).length
  if n < lo then []
  else (List.range (n + 1 - lo)).map (fun t => ((cs.take (n - t)), cs.drop (n - t)))

/-- Greedy bounded repetition of a character class (regex `[...]{lo,hi}`):
candidates longest-first. -/
def mRepB (p : Char → Bool) (lo hi : Nat) : M := fun cs =>
  let n := min (cs.takeWhile p).length hi
  if n < lo then []
  else (List.range (n + 1 - lo)).map (fun t => ((cs.take (n - t)), cs.drop (n - t)))

/-- Lazy repetition of a character class, at least `lo` times
(regex `.+?` with `p` the class of `.`): candidates shortest-first. -/
def mLazyGe (p : Char → Bool) (lo : Nat) : M := fun cs =>
  let n := (cs.takeWhile p).length
  if n < lo then []
  else (List.range (n + 1 - lo)).map (fun t => ((cs.take (lo + t)), cs.drop (lo + t)))

/-- Sequencing (regex concatenation); candidate order is the backtracking order. -/
def mSeq (a b : M) : M := fun cs =>
  (a cs).flatMap (fun q => (b q.2).map (fun w => (q.1 ++ w.1, w.2)))

/-- Alternation (regex `x|y`): left branch preferred. -/
def mAlt (a b : M) : M := fun cs => a cs ++ b cs

/-- Greedy option (regex `x?`): presence preferred. -/
def mOpt (a : M) : M := fun cs => a cs ++ [([], cs)]

/-- The empty matcher (matches nothing, consumes nothing). -/
def mEps : M := fun cs => [([], cs)]

/-- Zero-width assertion that the next character is not a word character
(the trailing half of a regex `\b` after a word character). -/
def mBoundNext : M
  | c :: r => if wordChar c then [] else [([], c :: r)]
  | [] => [([], [])]

/-- Run `pre`, then capture the text consumed by `val`, then require `post`:
the shape `prefix (?P<value>...) post` shared by the source's field regexes.
Returns the committed capture. -/
def mCap (pre val post : M) (cs : List Char) : Option (List Char) :=
  ((pre cs).flatMap (fun q =>
    (val q.2).flatMap (fun w =>
      (post w.2).map (fun _ => w.1)))).head?

/-! ### Membership lemmas for the combinators -/

theorem head?_mem {l : List α} {a : α} (h : l.head? = some a) : a ∈ l := by
  cases l with
  | nil => simp at h
  | cons x xs =>
    simp only [List.head?] at h
    rw [← Option.some_inj.mp h]
    simp

theorem length_takeWhile_le (p : α → Bool) (l : List α) :
    (l.takeWhile p).length ≤ l.length := by
  induction l with
  | nil => simp
  | cons c t ih =>
    cases h : p c
    · simp [List.takeWhile, h]
    · simp only [List.takeWhile, h, List.length_cons]
      omega

theorem take_eq_take_takeWhile (p : Char → Bool) (l : List Char) (k : Nat)
    (hk : k ≤ (l.takeWhile p).length) : l.take k = (l.takeWhile p).take k := by
  conv_lhs => rw [← List.takeWhile_append_dropWhile p l]
  rw [List.take_append_of_le_length hk]

theorem mem_mCls {p : Char → Bool} {cs : List Char} {q : Cand}
    (h : q ∈ mCls p cs) : ∃ c, p c = true ∧ q.1 = [c] ∧ cs = c :: q.2 := by
  cases cs with
  | nil => simp [mCls] at h
  | cons c r =>
    simp only [mCls] at h
    cases hp : p c
    · rw [hp] at h
      simp at h
    · rw [hp] at h
      simp at h
      subst h
      exact ⟨c, hp, rfl, rfl⟩

theorem mem_mLit {kw : List Char} {cs : List Char} {q : Cand}
    (h : q ∈ mLit kw cs) :
    q.1.length = kw.length ∧ cs = q.1 ++ q.2 ∧
    ∀ w ∈ q.1.zip kw, w.1.toLower = w.2.toLower := by
  unfold mLit at h
  split at h
  · next hcond =>
    simp only [List.mem_singleton] at h
    subst h
    exact ⟨hcond.1, by simp, hcond.2⟩
  · simp at h

theorem mem_mRepGe {p : Char → Bool} {lo : Nat} {cs : List Char} {q : Cand}
    (h : q ∈ mRepGe p lo cs) :
    lo ≤ q.1.length ∧ (∀ c ∈ q.1, p c = true) ∧ cs = q.1 ++ q.2 := by
  unfold mRepGe at h
  by_cases hn : (cs.takeWhile p).length < lo
  · simp [hn] at h
  · simp only [if_neg hn, List.mem_map, List.mem_range] at h
    obtain ⟨t, ht, hq⟩ := h
    have hwl := length_takeWhile_le p cs
    have hk : (cs.takeWhile p).length - t ≤ (cs.takeWhile p).length := Nat.sub_le _ _
    refine ⟨?_, ?_, ?_⟩
    · rw [← hq]
      simp only
      rw [List.length_take]
      omega
    · intro c hc
      rw [← hq] at hc
      simp only at hc
      rw [take_eq_take_takeWhile p cs _ hk] at hc
      exact List.mem_takeWhile_imp (List.mem_of_mem_take hc)
    · rw [← hq]
      simp [List.take_append_drop]

theorem mem_mRepB {p : Char → Bool} {lo hi : Nat} {cs : List Char} {q : Cand}
    (h : q ∈ mRepB p lo hi cs) :
    lo ≤ q.1.length ∧ q.1.length ≤ hi ∧ (∀ c ∈ q.1, p c = true) ∧ cs = q.1 ++ q.2 := by
  unfold mRepB at h
  by_cases hn : min (cs.takeWhile p).length hi < lo
  · simp [hn] at h
  · simp only [if_neg hn, List.mem_map, List.mem_range] at h
    obtain ⟨t, ht, hq⟩ := h
    have hwl := length_takeWhile_le p cs
    have hnw : min (cs.takeWhile p).length hi ≤ (cs.takeWhile p).length :=
      Nat.min_le_left _ _
    have hlen : (cs.take (min (cs.takeWhile p).length hi - t)).length =
        min (cs.takeWhile p).length hi - t := by
      rw [List.length_take]
      omega
    refine ⟨?_, ?_, ?_, ?_⟩
    · rw [← hq]
      simp only
      rw [hlen]
      omega
    · rw [← hq]
      simp only
      rw [hlen]
      omega
    · intro c hc
      rw [← hq] at hc
      simp only at hc
      rw [take_eq_take_takeWhile p cs _ (by omega)] at hc
      exact List.mem_takeWhile_imp (List.mem_of_mem_take hc)
    · rw [← hq]
      simp [List.take_append_drop]

theorem mem_mLazyGe {p : Char → Bool} {lo : Nat} {cs : List Char} {q : Cand}
    (h : q ∈ mLazyGe p lo cs) :
    lo ≤ q.1.length ∧ (∀ c ∈ q.1, p c = true) ∧ cs = q.1 ++ q.2 := by
  unfold mLazyGe at h
  by_cases hn : (cs.takeWhile p).length < lo
  · simp [hn] at h
  · simp only [if_neg hn, List.mem_map, List.mem_range] at h
    obtain ⟨t, ht, hq⟩ := h
    have hwl := length_takeWhile_le p cs
    have hlt : lo + t ≤ (cs.takeWhile p).length := by omega
    have hlen : (cs.take (lo + t)).length = lo + t := by
      rw [List.length_take]
      omega
    refine ⟨?_, ?_, ?_⟩
    · rw [← hq]
      simp only
      rw [hlen]
      omega
    · intro c hc
      rw [← hq] at hc
      simp only at hc
      rw [take_eq_take_takeWhile p cs _ hlt] at hc
      exact List.mem_takeWhile_imp (List.mem_of_mem_take hc)
    · rw [← hq]
      simp [List.take_append_drop]

theorem mem_mSeq {a b : M} {cs : List Char} {q : Cand}
    (h : q ∈ mSeq a b cs) :
    ∃ c1 c2 m r, q = (c1 ++ c2, r) ∧ (c1, m) ∈ a cs ∧ (c2, r) ∈ b m := by
  unfold mSeq at h
  rw [List.mem_flatMap] at h
  obtain ⟨w, hw, hq⟩ := h
  rw [List.mem_map] at hq
  obtain ⟨v, hv, hqq⟩ := hq
  exact ⟨w.1, v.1, w.2, v.2, by rw [← hqq], by simpa using hw, by simpa using hv⟩

theorem mem_mAlt {a b : M} {cs : List Char} {q : Cand}
    (h : q ∈ mAlt a b cs) : q ∈ a cs ∨ q ∈ b cs := by
  unfold mAlt at h
  exact List.mem_append.mp h

theorem mem_mOpt {a : M} {cs : List Char} {q : Cand}
    (h : q ∈ mOpt a cs) : q ∈ a cs ∨ q = ([], cs) := by
  unfold mOpt at h
  rcases List.mem_append.mp h with h1 | h1
  · exact Or.inl h1
  · right; simpa using h1

theorem mem_mEps {cs : List Char} {q : Cand} (h : q ∈ mEps cs) : q = ([], cs) := by
  unfold mEps at h
  simpa using h

theorem mem_mBoundNext {cs : List Char} {q : Cand}
    (h : q ∈ mBoundNext cs) : q = ([], cs) := by
  cases cs with
  | nil => simpa [mBoundNext] using h
  | cons c r =>
    simp only [mBoundNext] at h
    cases hw : wordChar c
    · rw [hw] at h
      simpa using h
    · rw [hw] at h
      simp at h

/-- Decompose a committed capture: the value came from the `val` sub-matcher
run after some candidate of `pre`. -/
theorem mCap_some {pre val post : M} {cs v : List Char}
    (h : mCap pre val post cs = some v) :
    ∃ c1 m r, (c1, m) ∈ pre cs ∧ (v, r) ∈ val m := by
  unfold mCap at h
  have hm := head?_mem h
  rw [List.mem_flatMap] at hm
  obtain ⟨q, hq, hm2⟩ := hm
  rw [List.mem_flatMap] at hm2
  obtain ⟨w, hw, hm3⟩ := hm2
  rw [List.mem_map] at hm3
  obtain ⟨u, hu, huv⟩ := hm3
  refine ⟨q.1, q.2, w.2, by simpa using hq, ?_⟩
  rw [← huv]
  simpa using hw

end PyStr

namespace PyStr

/-!
### Leftmost search (`re.search`)

`searchA f pw cs` scans positions left to right; at each position the anchored
matcher `f` receives a flag telling whether the previous character is a word
character (for regexes starting with `\b`) and the remaining suffix.
The top-level call uses `pw = false`: Python's `\b` holds at the start of the
string when a word character follows.
-/

def searchA (f : Bool → List Char → Option α) : Bool → List Char → Option α
  | pw, [] => f pw []
  | pw, c :: rest =>
    match f pw (c :: rest) with
    | some v => some v
    | none => searchA f (wordChar c) rest

/-- The word-context flag seen by `searchA` at offset `i`, starting from `pw`. -/
def pwAt (pw : Bool) (cs : List Char) : Nat → Bool
  | 0 => pw
  | j + 1 =>
    match cs.get? j with
    | some c => wordChar c
    | none => false

theorem searchA_some_exists {f : Bool → List Char → Option α} {pw : Bool}
    {cs : List Char} {v : α} (h : searchA f pw cs = some v) :
    ∃ i, i ≤ cs.length ∧ f (pwAt pw cs i) (cs.drop i) = some v := by
  induction cs generalizing pw with
  | nil =>
    exact ⟨0, by simp, by simpa [searchA, pwAt] using h⟩
  | cons c rest ih =>
    rw [searchA] at h
    cases hf : f pw (c :: rest) with
    | some w =>
      rw [hf] at h
      exact ⟨0, by simp, by simpa [pwAt, hf] using h⟩
    | none =>
      rw [hf] at h
      simp only at h
      obtain ⟨i, hi, hfi⟩ := ih h
      refine ⟨i + 1, by simpa using Nat.succ_le_succ hi, ?_⟩
      have hpw : pwAt pw (c :: rest) (i + 1) = pwAt (wordChar c) rest i := by
        cases i with
        | zero => simp [pwAt]
        | succ j =>
          simp only [pwAt, List.get?_cons_succ]
      rw [hpw]
      simpa using hfi

/-- Full characterization: the committed search result is the match at the
least matching position. -/
theorem searchA_eq_some_iff {f : Bool → List Char → Option α} {pw : Bool}
    {cs : List Char} {v : α} :
    searchA f pw cs = some v ↔
      ∃ i, i ≤ cs.length ∧ f (pwAt pw cs i) (cs.drop i) = some v ∧
        ∀ j, j < i → f (pwAt pw cs j) (cs.drop j) = none := by
  induction cs generalizing pw with
  | nil =>
    constructor
    · intro h
      exact ⟨0, by simp, by simpa [searchA, pwAt] using h, by omega⟩
    · rintro ⟨i, hi, hfi, hmin⟩
      have hi0 : i = 0 := by simpa using hi
      subst hi0
      simpa [searchA, pwAt] using hfi
  | cons c rest ih =>
    constructor
    · intro h
      rw [searchA] at h
      cases hf : f pw (c :: rest) with
      | some w =>
        rw [hf] at h
        exact ⟨0, by simp, by simpa [pwAt, hf] using h, by omega⟩
      | none =>
        rw [hf] at h
        simp only at h
        obtain ⟨i, hi, hfi, hmin⟩ := ih.mp h
        refine ⟨i + 1, by simpa using Nat.succ_le_succ hi, ?_, ?_⟩
        · have hpw : pwAt pw (c :: rest) (i + 1) = pwAt (wordChar c) rest i := by
            cases i with
            | zero => simp [pwAt]
            | succ j => simp only [pwAt, List.get?_cons_succ]
          rw [hpw]
          simpa using hfi
        · intro j hj
          cases j with
          | zero => simpa [pwAt] using hf
          | succ k =>
            have hpw : pwAt pw (c :: rest) (k + 1) = pwAt (wordChar c) rest k := by
              cases k with
              | zero => simp [pwAt]
              | succ m => simp only [pwAt, List.get?_cons_succ]
            rw [hpw]
            simpa using hmin k (by omega)
    · rintro ⟨i, hi, hfi, hmin⟩
      rw [searchA]
      cases i with
      | zero =>
        simp only [pwAt, List.drop_zero] at hfi
        rw [hfi]
      | succ k =>
        have hf0 : f pw (c :: rest) = none := by
          simpa [pwAt] using hmin 0 (by omega)
        rw [hf0]
        simp only
        apply ih.mpr
        refine ⟨k, by simpa using hi, ?_, ?_⟩
        · have hpw : pwAt pw (c :: rest) (k + 1) = pwAt (wordChar c) rest k := by
            cases k with
            | zero => simp [pwAt]
            | succ m => simp only [pwAt, List.get?_cons_succ]
          rw [← hpw]
          simpa using hfi
        · intro j hj
          have hpw : pwAt pw (c :: rest) (j + 1) = pwAt (wordChar c) rest j := by
            cases j with
            | zero => simp [pwAt]
            | succ m => simp only [pwAt, List.get?_cons_succ]
          rw [← hpw]
          simpa using hmin (j + 1) (by omega)

end PyStr

namespace PyStr

/-- Characters of the class `[\d,]`. -/
def digitComma (c : Char) : Bool := c.isDigit || c = ','

/-- The `\.\d{2}` tail of `money_pattern`. -/
def moneyTail : List Char → Option (Char × Char × List Char)
  | x :: d1 :: d2 :: r3 =>
    if x == '.' && d1.isDigit && d2.isDigit then some (d1, d2, r3) else none
  | _ => none

theorem moneyTail_some {l : List Char} {d1 d2 : Char} {r3 : List Char}
    (h : moneyTail l = some (d1, d2, r3)) :
    l = '.' :: d1 :: d2 :: r3 ∧ d1.isDigit = true ∧ d2.isDigit = true := by
  cases l with
  | nil => simp [moneyTail] at h
  | cons x t =>
    cases t with
    | nil => simp [moneyTail] at h
    | cons y t2 =>
      cases t2 with
      | nil => simp [moneyTail] at h
      | cons z t3 =>
        simp only [moneyTail] at h
        cases hc : (x == '.' && y.isDigit && z.isDigit)
        · rw [hc] at h
          simp at h
        · rw [hc] at h
          simp only [if_pos rfl, Option.some_inj, Prod.mk.injEq] at h
          rcases h with ⟨rfl, rfl, rfl⟩
          simp only [Bool.and_eq_true, beq_iff_eq] at hc
          exact ⟨by rw [hc.1.1], hc.1.2, hc.2⟩

/-- Anchored match of `money_pattern = re.compile(r"\d[\d,]*\.\d{2}")`
(`src/text_parser.py` line 36).  No backtracking case analysis is needed:
after the greedy `[\d,]*` run, giving characters back would place `\.` on a
digit or comma, which can never match, so the greedy parse is the only one. -/
def moneyAt : List Char → Option (List Char × List Char)
  | c :: rest =>
    if c.isDigit then
      match moneyTail (rest.dropWhile digitComma) with
      | some (d1, d2, r3) =>
        some (c :: (rest.takeWhile digitComma ++ '.' :: [d1, d2]), r3)
      | none => none
    else none
  | [] => none

theorem takeWhile_append_of_all {p : Char → Bool} {xs : List Char} {y : Char}
    (zs : List Char) (hxs : ∀ x ∈ xs, p x = true) (hy : p y = false) :
    (xs ++ y :: zs).takeWhile p = xs := by
  induction xs with
  | nil => simp [List.takeWhile, hy]
  | cons a as ih =>
    have ha : p a = true := hxs a (by simp)
    simp only [List.cons_append, List.takeWhile, ha, List.append_eq]
    rw [ih (fun x hx => hxs x (by simp [hx]))]

/-- Structure of a committed `money_pattern` match. -/
theorem moneyAt_spec {cs tok r : List Char} (h : moneyAt cs = some (tok, r)) :
    ∃ c run d1 d2,
      tok = c :: run ++ '.' :: [d1, d2] ∧ cs = tok ++ r ∧
      c.isDigit = true ∧ (∀ x ∈ run, digitComma x = true) ∧
      d1.isDigit = true ∧ d2.isDigit = true := by
  cases cs with
  | nil => simp [moneyAt] at h
  | cons c rest =>
    simp only [moneyAt] at h
    cases hd : c.isDigit
    · rw [hd] at h
      simp at h
    · rw [hd] at h
      simp only [if_pos rfl] at h
      cases hmt : moneyTail (rest.dropWhile digitComma) with
      | none =>
        rw [hmt] at h
        simp at h
      | some w =>
        obtain ⟨d1, d2, r3⟩ := w
        rw [hmt] at h
        simp only [Option.some_inj, Prod.mk.injEq] at h
        obtain ⟨htok, hr⟩ := h
        obtain ⟨hdw, hd1, hd2⟩ := moneyTail_some hmt
        have hsplit := List.takeWhile_append_dropWhile digitComma rest
        rw [hdw] at hsplit
        refine ⟨c, rest.takeWhile digitComma, d1, d2, rfl, ?_, hd,
          fun x hx => List.mem_takeWhile_imp hx, hd1, hd2⟩
        simp only [List.cons_append, List.append_assoc, List.cons.injEq]
        refine ⟨trivial, ?_⟩
        exact hsplit.symm

/-- `money_pattern.findall` (non-overlapping, left to right); the fuel is the
input length, which each step strictly decreases, so the fuel never runs out. -/
def moneyFindAllGo : Nat → List Char → List (List Char)
  | 0, _ => []
  | _ + 1, [] => []
  | n + 1, c :: rest =>
    match moneyAt (c :: rest) with
    | some (tok, r) => tok :: moneyFindAllGo n r
    | none => moneyFindAllGo n rest

def moneyFindAll (l : List Char) : List (List Char) := moneyFindAllGo l.length l

/-- Start index of `money_pattern.search` (`first_amount_match.start()`). -/
def moneySearchStart : List Char → Option Nat
  | [] => none
  | c :: rest =>
    if (moneyAt (c :: rest)).isSome then some 0
    else (moneySearchStart rest).map (· + 1)

/-- Digits of an ASCII numeral to its value. -/
def natOfDigits (l : List Char) : Nat :=
  l.foldl (fun a c => a * 10 + (c.toNat - 48)) 0

/-- Models Python `float()` on the comma-stripped matches of `money_pattern`.
Such strings always have the shape `digits '.' digit digit` (the value is
held in cents); the model accepts exactly that shape and rejects anything
else, which is faithful on every string the source ever converts. -/
def toCents (l : List Char) : Option Nat :=
  let ip := l.takeWhile Char.isDigit
  let rest := l.drop ip.length
  if ip.length ≠ 0 ∧ rest.length = 3 ∧ rest.take 1 = ['.'] ∧
      (∀ c ∈ rest.drop 1, c.isDigit = true) then
    some (natOfDigits ip * 100 + natOfDigits (rest.drop 1))
  else none

/-- Every `money_pattern` match, after `replace(",", "")`, converts without a
`ValueError`: the `float()` call in the source can never fail. -/
theorem toCents_of_moneyTok {tok : List Char}
    (h : ∃ c run d1 d2,
      tok = c :: run ++ '.' :: [d1, d2] ∧
      c.isDigit = true ∧ (∀ x ∈ run, digitComma x = true) ∧
      d1.isDigit = true ∧ d2.isDigit = true) :
    (toCents (tok.filter (fun c => c ≠ ','))).isSome = true := by
  obtain ⟨c, run, d1, d2, htok, hc, hrun, hd1, hd2⟩ := h
  subst htok
  have hfil : (c :: run ++ '.' :: [d1, d2]).filter (fun c => c ≠ ',') =
      c :: run.filter (fun c => c ≠ ',') ++ '.' :: [d1, d2] := by
    have hcne : c ≠ ',' := by
      intro hcc
      rw [hcc] at hc
      simp [Char.isDigit] at hc
    have hd1ne : d1 ≠ ',' := by
      intro hcc
      rw [hcc] at hd1
      simp [Char.isDigit] at hd1
    have hd2ne : d2 ≠ ',' := by
      intro hcc
      rw [hcc] at hd2
      simp [Char.isDigit] at hd2
    simp [List.filter_append, List.filter_cons, hcne, hd1ne, hd2ne]
  rw [hfil]
  set ds := run.filter (fun c => c ≠ ',') with hds
  have hdsdig : ∀ x ∈ ds, x.isDigit = true := by
    intro x hx
    rw [hds] at hx
    have hx1 := List.mem_of_mem_filter hx
    have hx2 := List.of_mem_filter hx
    have := hrun x hx1
    simp only [digitComma, Bool.or_eq_true] at this
    rcases this with hdg | hcm
    · exact hdg
    · exfalso
      rw [decide_eq_true_eq] at hx2
      exact hx2 (by simpa using hcm)
  have hall : ∀ x ∈ c :: ds, Char.isDigit x = true := by
    intro x hx
    rcases List.mem_cons.mp hx with h1 | h1
    · rw [h1]; exact hc
    · exact hdsdig x h1
  have hdot : Char.isDigit '.' = false := by simp [Char.isDigit]
  have htw : ((c :: ds) ++ '.' :: [d1, d2]).takeWhile Char.isDigit = c :: ds :=
    takeWhile_append_of_all _ hall hdot
  have hdrop : ((c :: ds) ++ '.' :: [d1, d2]).drop (c :: ds).length = '.' :: [d1, d2] :=
    List.drop_left _ _
  unfold toCents
  simp only [List.cons_append] at htw hdrop ⊢
  rw [htw, hdrop]
  rw [if_pos]
  · simp
  · refine ⟨by simp, by simp, by simp, ?_⟩
    intro x hx
    simp only [List.drop_succ_cons, List.drop_zero] at hx
    rcases List.mem_cons.mp hx with h1 | h1
    · rw [h1]; exact hd1
    · rcases List.mem_cons.mp h1 with h2 | h2
      · rw [h2]; exact hd2
      · simp at h2

end PyStr

namespace PyStr

/-- Per-line normalization shared by both extractors
(`re.sub(r"\s+", " ", ln.strip())`). -/
def normLine (l : List Char) : List Char := collapseRuns pyWs (pyStrip l)

/-- `text.splitlines()` followed by per-line normalization. -/
def normLines (text : String) : List (List Char) :=
  (pySplitLines text.data).map normLine

/-- `re.search` existence for matchers without `\b` context: scan suffixes. -/
def searchM (m : M) : List Char → Bool
  | [] => !(m []).isEmpty
  | c :: rest => !(m (c :: rest)).isEmpty || searchM m rest

theorem searchM_exists {m : M} {l : List Char} (h : searchM m l = true) :
    ∃ pre suf, l = pre ++ suf ∧ m suf ≠ [] := by
  induction l with
  | nil =>
    refine ⟨[], [], rfl, ?_⟩
    simp only [searchM, Bool.not_eq_true'] at h
    intro he
    rw [he] at h
    simp at h
  | cons c rest ih =>
    rw [searchM] at h
    rw [Bool.or_eq_true] at h
    rcases h with h1 | h1
    · refine ⟨[], c :: rest, rfl, ?_⟩
      intro he
      rw [he] at h1
      simp at h1
    · obtain ⟨pre, suf, hls, hm⟩ := ih h1
      exact ⟨c :: pre, suf, by rw [hls]; rfl, hm⟩

end PyStr

namespace TextParse

open PyStr

/-- A parsed line item of `text_parser.extract_line_items`.  In the source the
`quantity` field is always the constant `1.0` (line 91: "quantity is implicit
in your sample"), so it carries no information and the record keeps the two
monetary values, held exactly in cents (the float values are whole cents). -/
structure Item where
  description : String
  unit_price_cents : Nat
  line_total_cents : Nat
deriving DecidableEq, Repr

/-- The header regex of `text_parser.py` lines 23-26:
`description\s+qty\s+unit\s+price\s+(total|line\s+total)`, `re.IGNORECASE`. -/
def headerRe : M :=
  mSeq (mLit ("description".data)) (mSeq (mRepGe pyWs 1)
    (mSeq (mLit ("qty".data)) (mSeq (mRepGe pyWs 1)
      (mSeq (mLit ("unit".data)) (mSeq (mRepGe pyWs 1)
        (mSeq (mLit ("price".data)) (mSeq (mRepGe pyWs 1)
          (mAlt (mLit ("total".data))
            (mSeq (mLit ("line".data)) (mSeq (mRepGe pyWs 1) (mLit ("total".data))))))))))))

/-- `header_pattern.search(line)` succeeds. -/
def headerLine (l : List Char) : Bool := searchM headerRe l

/-- The stop condition of lines 46-50:
`re.search(r"(subtotal|grand total|total tax|balance due)", line.lower())`:
a search for an alternation of literals succeeds iff one is a substring. -/
def tpTerminal (l : List Char) : Bool :=
  containsSub ("subtotal".data) (lowerL l) ||
  containsSub ("grand total".data) (lowerL l) ||
  containsSub ("total tax".data) (lowerL l) ||
  containsSub ("balance due".data) (lowerL l)

/-- Characters stripped from the description candidate: `strip(" -:")`. -/
def dashColonSpace (c : Char) : Bool := c = ' ' || c = '-' || c = ':'

/-- Lines 57-61: the text before the first monetary token, stripped. -/
def currentDescOf (line : List Char) : List Char :=
  match moneySearchStart line with
  | some i => stripSet dashColonSpace (line.take i)
  | none => []

/-- Lines 63-76: join the pending continuation line with the current
description candidate, re-strip, and remove a trailing " as" artifact. -/
def rowDesc (line pending : List Char) : List Char :=
  let currentDesc := currentDescOf line
  let desc0 :=
    if pending ≠ [] ∧ currentDesc ≠ [] then pending ++ ' ' :: currentDesc
    else if currentDesc ≠ [] then currentDesc
    else if pending ≠ [] then pending
    else []
  let desc1 := pyStrip desc0
  if endsWithL (" as".data) (lowerL desc1) then pyStrip (desc1.take (desc1.length - 2))
  else desc1

/-- `s.replace(",", "")` on a monetary token. -/
def commaFree (tok : List Char) : List Char := tok.filter (fun c => c ≠ ',')

/-- Lines 78-95: drop short descriptions, convert the two monetary tokens
(`float(s.replace(",", ""))`), and build the item. -/
def rowEmit (line pending unitTok totTok : List Char) : Option Item :=
  let desc := rowDesc line pending
  if desc.length < 10 then none
  else
    match toCents (commaFree unitTok), toCents (commaFree totTok) with
    | some u, some t => some ⟨String.mk desc, u, t⟩
    | _, _ => none

/-- The `for line in lines[header_index + 1:]` loop of lines 40-98, with the
pending continuation line (`prev_desc_line`) as explicit state.  A line with
fewer than two monetary tokens becomes the new pending line; emission leaves
the pending line unchanged. -/
def processTP : List (List Char) → List Char → List Item
  | [], _ => []
  | line :: rest, pending =>
    if line = [] then processTP rest pending
    else if tpTerminal line then []
    else
      match (moneyFindAll line).reverse with
      | totTok :: unitTok :: _ =>
        (match rowEmit line pending unitTok totTok with
         | some item => item :: processTP rest pending
         | none => processTP rest pending)
      | _ => processTP rest line

/-- `text_parser.extract_line_items` (lines 4-100). -/
def extract_line_items (text : String) : List Item :=
  match findIdxO headerLine (normLines text) with
  | none => []
  | some i => processTP ((normLines text).drop (i + 1)) []

/-! ### Exception-aware variant

`float()` is the only fallible primitive the function executes; it is modelled
in `Except`, and the `try/except ValueError: continue` of lines 82-86 is the
`Except.error` handler in `processTPE`. -/

def pyFloatE (l : List Char) : Except String Nat :=
  match toCents l with
  | some v => Except.ok v
  | none => Except.error "ValueError"

def rowEmitE (line pending unitTok totTok : List Char) : Except String (Option Item) :=
  let desc := rowDesc line pending
  if desc.length < 10 then Except.ok none
  else do
    let u ← pyFloatE (commaFree unitTok)
    let t ← pyFloatE (commaFree totTok)
    pure (some ⟨String.mk desc, u, t⟩)

def processTPE : List (List Char) → List Char → Except String (List Item)
  | [], _ => Except.ok []
  | line :: rest, pending =>
    if line = [] then processTPE rest pending
    else if tpTerminal line then Except.ok []
    else
      match (moneyFindAll line).reverse with
      | totTok :: unitTok :: _ =>
        (match rowEmitE line pending unitTok totTok with
         | Except.ok (some item) => (processTPE rest pending).map (fun items => item :: items)
         | Except.ok none => processTPE rest pending
         | Except.error _ => processTPE rest pending)
      | _ => processTPE rest line

def extract_line_itemsE (text : String) : Except String (List Item) :=
  match findIdxO headerLine (normLines text) with
  | none => Except.ok []
  | some i => processTPE ((normLines text).drop (i + 1)) []

theorem rowEmitE_ok_some {line pending unitTok totTok : List Char} {item : Item}
    (h : rowEmitE line pending unitTok totTok = Except.ok (some item)) :
    rowEmit line pending unitTok totTok = some item := by
  unfold rowEmitE at h
  unfold rowEmit
  by_cases hl : (rowDesc line pending).length < 10
  · rw [if_pos hl] at h
    rw [if_pos hl]
    simp at h
  · rw [if_neg hl] at h
    rw [if_neg hl]
    cases hu : toCents (commaFree unitTok) with
    | none => simp [pyFloatE, hu, bind, Except.bind] at h
    | some u =>
      cases ht : toCents (commaFree totTok) with
      | none => simp [pyFloatE, hu, ht, bind, Except.bind] at h
      | some t =>
        simp only [pyFloatE, hu, ht] at h
        simp only [bind, Except.bind, pure, Except.pure, Except.ok.injEq,
          Option.some_inj] at h
        rw [← h]

theorem rowEmitE_not_some {line pending unitTok totTok : List Char}
    (h : ∀ item, rowEmitE line pending unitTok totTok ≠ Except.ok (some item)) :
    rowEmit line pending unitTok totTok = none := by
  unfold rowEmitE at h
  unfold rowEmit
  by_cases hl : (rowDesc line pending).length < 10
  · rw [if_pos hl]
  · rw [if_neg hl]
    simp only [if_neg hl] at h
    cases hu : toCents (commaFree unitTok) with
    | none => simp [hu]
    | some u =>
      cases ht : toCents (commaFree totTok) with
      | none => simp [hu, ht]
      | some t =>
        exfalso
        apply h ⟨String.mk (rowDesc line pending), u, t⟩
        simp only [pyFloatE, hu, ht]
        rfl

/-- The exception-aware extractor never fails: it returns exactly the result
of the total model.  The only raisable error (`float` on a malformed token)
is caught by the source's handler. -/
theorem processTPE_ok : ∀ (lines : List (List Char)) (pending : List Char),
    processTPE lines pending = Except.ok (processTP lines pending) := by
  intro lines
  induction lines with
  | nil => intro pending; rfl
  | cons line rest ih =>
    intro pending
    rw [processTP, processTPE]
    by_cases h1 : line = []
    · rw [if_pos h1, if_pos h1]
      exact ih pending
    · rw [if_neg h1, if_neg h1]
      by_cases h2 : tpTerminal line = true
      · rw [if_pos h2, if_pos h2]
      · rw [if_neg h2, if_neg h2]
        cases hrev : (moneyFindAll line).reverse with
        | nil => exact ih line
        | cons totTok rest2 =>
          cases rest2 with
          | nil => exact ih line
          | cons unitTok more =>
            cases hre : rowEmitE line pending unitTok totTok with
            | ok o =>
              cases o with
              | some item =>
                have hr := rowEmitE_ok_some hre
                simp only [hre, hr, ih pending, Except.map]
              | none =>
                have hnone : rowEmit line pending unitTok totTok = none := by
                  apply rowEmitE_not_some
                  intro item hitem
                  rw [hre] at hitem
                  simp at hitem
                simp only [hre, hnone, ih pending]
            | error e =>
              have hnone : rowEmit line pending unitTok totTok = none := by
                apply rowEmitE_not_some
                intro item hitem
                rw [hre] at hitem
                simp at hitem
              simp only [hre, hnone, ih pending]

theorem extract_line_itemsE_ok (text : String) :
    extract_line_itemsE text = Except.ok (extract_line_items text) := by
  unfold extract_line_itemsE extract_line_items
  cases h : findIdxO headerLine (normLines text) with
  | none => rfl
  | some i => exact processTPE_ok _ _

end TextParse

namespace InvoiceParse

open PyStr

/-- A line item of `invoice_parser.extract_line_items`: all fields are the
captured strings (`quantity` defaults to `"1"` when the row has no quantity
column). -/
structure LineItem where
  description : String
  quantity : String
  unit_price : String
  line_total : String
deriving DecidableEq, Repr

/-- `.` in the source's row patterns: any character but a newline. -/
def notNl (c : Char) : Bool := c ≠ '\n'

/-- `\d+(?:\.\d+)?` (the `qty` group). -/
def qtyM : M :=
  mSeq (mRepGe Char.isDigit 1)
    (mOpt (mSeq (mCls (fun c => c = '.')) (mRepGe Char.isDigit 1)))

/-- `\d[\d,]*\.\d{1,2}` (the `unit_price` / `line_total` groups). -/
def moneyM12 : M :=
  mSeq (mCls Char.isDigit)
    (mSeq (mRepGe digitComma 0)
      (mSeq (mCls (fun c => c = '.')) (mRepB Char.isDigit 1 2)))

/-- `pattern_with_qty.match(line)` (lines 245-250, 272): anchored at the line
start; the lazy description tries shortest prefixes first, then each `\s+` or
numeric group backtracks greedily, exactly the candidate order of `re`. -/
def rowWithQty (cs : List Char) :
    Option (List Char × List Char × List Char × List Char) :=
  ((mLazyGe notNl 1 cs).flatMap (fun qd =>
    (mRepGe pyWs 1 qd.2).flatMap (fun w1 =>
      (qtyM w1.2).flatMap (fun qq =>
        (mRepGe pyWs 1 qq.2).flatMap (fun w2 =>
          (moneyM12 w2.2).flatMap (fun qu =>
            (mRepGe pyWs 1 qu.2).flatMap (fun w3 =>
              (moneyM12 w3.2).map (fun qt =>
                (qd.1, qq.1, qu.1, qt.1))))))))).head?

/-- `pattern_no_qty.match(line)` (lines 252-256, 280). -/
def rowNoQty (cs : List Char) : Option (List Char × List Char × List Char) :=
  ((mLazyGe notNl 1 cs).flatMap (fun qd =>
    (mRepGe pyWs 1 qd.2).flatMap (fun w1 =>
      (moneyM12 w1.2).flatMap (fun qu =>
        (mRepGe pyWs 1 qu.2).flatMap (fun w2 =>
          (moneyM12 w2.2).map (fun qt => (qd.1, qu.1, qt.1))))))).head?

/-- Lines 263-270: totals section check by substring membership. -/
def invTerminal (l : List Char) : Bool :=
  containsSub ("subtotal".data) (lowerL l) ||
  containsSub ("grand total".data) (lowerL l) ||
  containsSub ("total tax".data) (lowerL l) ||
  containsSub ("balance due".data) (lowerL l)

/-- Lines 233-237: a header line contains both `"description"` and `"qty"`
as substrings of its lowercasing. -/
def invHeaderPred (l : List Char) : Bool :=
  containsSub ("description".data) (lowerL l) &&
  containsSub ("qty".data) (lowerL l)

/-- The row loop of lines 259-298. -/
def invProcess : List (List Char) → List LineItem
  | [] => []
  | line :: rest =>
    if line = [] then invProcess rest
    else if invTerminal line then []
    else
      match rowWithQty line with
      | some (d, q, u, t) =>
        let d2 := stripSet TextParse.dashColonSpace d
        if d2 = [] then invProcess rest
        else ⟨String.mk d2, String.mk q, String.mk u, String.mk t⟩ :: invProcess rest
      | none =>
        match rowNoQty line with
        | some (d, u, t) =>
          let d2 := stripSet TextParse.dashColonSpace d
          if d2 = [] then invProcess rest
          else ⟨String.mk d2, "1", String.mk u, String.mk t⟩ :: invProcess rest
        | none => invProcess rest

/-- `invoice_parser.extract_line_items` (lines 218-300). -/
def extract_line_items (text : String) : List LineItem :=
  match findIdxO invHeaderPred (normLines text) with
  | none => []
  | some i => invProcess ((normLines text).drop (i + 1))

end InvoiceParse

namespace InvoiceParse

open PyStr

/-- The record returned by `parse_invoice_text` (the `InvoiceFields`
dataclass, `invoice_parser.py` lines 6-41).  The address/email/phone fields
are never assigned by the parser and keep their `None` defaults. -/
structure InvoiceFields where
  invoice_number : Option String
  invoice_date : Option String
  invoice_status : Option String
  subtotal : Option String
  discount : Option String
  tax_rate : Option String
  total_tax : Option String
  balance_due : Option String
  total_amount : Option String
  currency : Option String
  supplier_name : Option String
  supplier_address : Option String
  supplier_email : Option String
  supplier_phone : Option String
  customer_name : Option String
  billing_address : Option String
  shipping_address : Option String
  payment_terms : Option String
  bank_name : Option String
  branch : Option String
  account_number : Option String
  payment_instructions : Option String
deriving DecidableEq, Repr

/-! ### Character classes of the field regexes (`re.IGNORECASE` everywhere,
so letter classes match both cases). -/

def spaceTab (c : Char) : Bool := c = ' ' || c = '\t'

def colonWs (c : Char) : Bool := c = ':' || pyWs c

def dashColon (c : Char) : Bool := c = '-' || c = ':'

def slashDash (c : Char) : Bool := c = '/' || c = '-'

def pipeColonDash (c : Char) : Bool := c = '|' || c = ':' || c = '-'

/-- `[A-Z0-9_\-\/]` under `IGNORECASE`. -/
def invNumChar (c : Char) : Bool :=
  c.isAlpha || c.isDigit || c = '_' || c = '-' || c = '/'

/-- `[A-Za-z ]` (also `[A-Z ]` under `IGNORECASE`). -/
def alphaSpace (c : Char) : Bool := c.isAlpha || c = ' '

/-- `[A-Z0-9 &]` / `[A-Za-z0-9 &]` under `IGNORECASE`. -/
def supChar (c : Char) : Bool := c.isAlpha || c.isDigit || c = ' ' || c = '&'

/-! ### Value sub-patterns -/

/-- `\d[\d,]*\.?\d{0,2}` (amounts). -/
def amtVal : M :=
  mSeq (mCls Char.isDigit)
    (mSeq (mRepGe digitComma 0)
      (mSeq (mOpt (mCls (fun c => c = '.'))) (mRepB Char.isDigit 0 2)))

/-- `\d{1,2}[\/\-]\d{1,2}[\/\-]\d{2,4}` (dates). -/
def dateVal : M :=
  mSeq (mRepB Char.isDigit 1 2)
    (mSeq (mCls slashDash)
      (mSeq (mRepB Char.isDigit 1 2)
        (mSeq (mCls slashDash) (mRepB Char.isDigit 2 4))))

/-- `\d+\.?\d*%` (tax rate). -/
def taxRateVal : M :=
  mSeq (mRepGe Char.isDigit 1)
    (mSeq (mOpt (mCls (fun c => c = '.')))
      (mSeq (mRepGe Char.isDigit 0) (mCls (fun c => c = '%'))))

/-- `[A-Z]{0,3}\s?\d[\d,]*\.?\d{0,2}` (totals, optionally currency-prefixed). -/
def totVal : M :=
  mSeq (mRepB Char.isAlpha 0 3)
    (mSeq (mOpt (mCls pyWs))
      (mSeq (mCls Char.isDigit)
        (mSeq (mRepGe digitComma 0)
          (mSeq (mOpt (mCls (fun c => c = '.'))) (mRepB Char.isDigit 0 2)))))

/-- `[A-Z0-9_\-\/]+`. -/
def invNumVal : M := mRepGe invNumChar 1

/-- `\S+`. -/
def nonWsVal : M := mRepGe (fun c => !pyWs c) 1

/-! ### Anchored matchers, one per source pattern.  Each mirrors one regex of
`parse_invoice_text` (lines 63-195); the `pw` flag carries the leading-`\b`
context and is ignored by patterns without a leading `\b`. -/

/-- `invoice\s*(no\.?|number)[:\s]+(?P<value>[A-Z0-9_\-\/]+)` (line 65). -/
def invNoP1 (_pw : Bool) (cs : List Char) : Option (List Char) :=
  mCap (mSeq (mLit ("invoice".data))
      (mSeq (mRepGe pyWs 0)
        (mSeq (mAlt (mSeq (mLit ("no".data)) (mOpt (mCls (fun c => c = '.'))))
                    (mLit ("number".data)))
          (mRepGe colonWs 1))))
    invNumVal mEps cs

/-- `inv\s*#[:\s]+(?P<value>[A-Z0-9_\-\/]+)` (line 66). -/
def invNoP2 (_pw : Bool) (cs : List Char) : Option (List Char) :=
  mCap (mSeq (mLit ("inv".data))
      (mSeq (mRepGe pyWs 0)
        (mSeq (mCls (fun c => c = '#')) (mRepGe colonWs 1))))
    invNumVal mEps cs

/-- `invoiceno\.?\s*[|:\-]*\s*(?P<value>\S+)` (line 68). -/
def invNoP3 (_pw : Bool) (cs : List Char) : Option (List Char) :=
  mCap (mSeq (mLit ("invoiceno".data))
      (mSeq (mOpt (mCls (fun c => c = '.')))
        (mSeq (mRepGe pyWs 0)
          (mSeq (mRepGe pipeColonDash 0) (mRepGe pyWs 0)))))
    nonWsVal mEps cs

/-- `invoice\s*date[:\s]+(?P<value>\d{1,2}[\/\-]\d{1,2}[\/\-]\d{2,4})` (line 75). -/
def dateP1 (_pw : Bool) (cs : List Char) : Option (List Char) :=
  mCap (mSeq (mLit ("invoice".data))
      (mSeq (mRepGe pyWs 0) (mSeq (mLit ("date".data)) (mRepGe colonWs 1))))
    dateVal mEps cs

/-- `date[:\s]+(?P<value>\d{1,2}[\/\-]\d{1,2}[\/\-]\d{2,4})` (line 76). -/
def dateP2 (_pw : Bool) (cs : List Char) : Option (List Char) :=
  mCap (mSeq (mLit ("date".data)) (mRepGe colonWs 1)) dateVal mEps cs

/-- `subtotal\s+(?P<value>\d[\d,]*\.?\d{0,2})` (line 83). -/
def subtotalAt (_pw : Bool) (cs : List Char) : Option (List Char) :=
  mCap (mSeq (mLit ("subtotal".data)) (mRepGe pyWs 1)) amtVal mEps cs

/-- `discount\s*[-:]?\s*(?P<value>\d[\d,]*\.?\d{0,2})` (line 90). -/
def discountAt (_pw : Bool) (cs : List Char) : Option (List Char) :=
  mCap (mSeq (mLit ("discount".data))
      (mSeq (mRepGe pyWs 0) (mSeq (mOpt (mCls dashColon)) (mRepGe pyWs 0))))
    amtVal mEps cs

/-- `tax\s*rate\s+(?P<value>\d+\.?\d*%)` (line 97). -/
def taxRateAt (_pw : Bool) (cs : List Char) : Option (List Char) :=
  mCap (mSeq (mLit ("tax".data))
      (mSeq (mRepGe pyWs 0) (mSeq (mLit ("rate".data)) (mRepGe pyWs 1))))
    taxRateVal mEps cs

/-- `total\s+tax\s+(?P<value>\d[\d,]*\.?\d{0,2})` (line 104). -/
def totalTaxAt (_pw : Bool) (cs : List Char) : Option (List Char) :=
  mCap (mSeq (mLit ("total".data))
      (mSeq (mRepGe pyWs 1) (mSeq (mLit ("tax".data)) (mRepGe pyWs 1))))
    amtVal mEps cs

/-- `balance\s+due\s+(?P<value>\d[\d,]*\.?\d{0,2})` (line 111). -/
def balanceAt (_pw : Bool) (cs : List Char) : Option (List Char) :=
  mCap (mSeq (mLit ("balance".data))
      (mSeq (mRepGe pyWs 1) (mSeq (mLit ("due".data)) (mRepGe pyWs 1))))
    amtVal mEps cs

/-- `(grand\s*total|total\s*amount|amount\s*due)[:\s]+(?P<value>...)` (line 119);
the named `value` group is preferred over group 1 by `_first_match`. -/
def totalP1 (_pw : Bool) (cs : List Char) : Option (List Char) :=
  mCap (mSeq (mAlt (mSeq (mLit ("grand".data)) (mSeq (mRepGe pyWs 0) (mLit ("total".data))))
        (mAlt (mSeq (mLit ("total".data)) (mSeq (mRepGe pyWs 0) (mLit ("amount".data))))
              (mSeq (mLit ("amount".data)) (mSeq (mRepGe pyWs 0) (mLit ("due".data))))))
      (mRepGe colonWs 1))
    totVal mEps cs

/-- `\btotal\b[:\s]+(?P<value>...)` (line 120). -/
def totalP2 (pw : Bool) (cs : List Char) : Option (List Char) :=
  if pw then none
  else
    mCap (mSeq (mLit ("total".data)) (mSeq mBoundNext (mRepGe colonWs 1)))
      totVal mEps cs

/-- `\b(USD|EUR|GBP|LKR|INR)\b` (line 127); `_first_match` falls back to
group 1, the matched code. -/
def curP1 (pw : Bool) (cs : List Char) : Option (List Char) :=
  if pw then none
  else
    mCap mEps
      (mAlt (mLit ("usd".data)) (mAlt (mLit ("eur".data))
        (mAlt (mLit ("gbp".data)) (mAlt (mLit ("lkr".data)) (mLit ("inr".data))))))
      mBoundNext cs

/-- `(?P<value>Rs\.)` (line 128). -/
def curP2 (_pw : Bool) (cs : List Char) : Option (List Char) :=
  mCap mEps (mLit ("rs.".data)) mEps cs

/-- `(?P<value>\$)` (line 129). -/
def curP3 (_pw : Bool) (cs : List Char) : Option (List Char) :=
  mCap mEps (mCls (fun c => c = '$')) mEps cs

/-- `\b(unpaid|paid|overdue|cancelled)\b` (line 137). -/
def statusAt (pw : Bool) (cs : List Char) : Option (List Char) :=
  if pw then none
  else
    mCap mEps
      (mAlt (mLit ("unpaid".data)) (mAlt (mLit ("paid".data))
        (mAlt (mLit ("overdue".data)) (mLit ("cancelled".data)))))
      mBoundNext cs

/-- `(?P<value>[A-Z][A-Z0-9 &]+PRIVATE LIMITED)` (line 145). -/
def supP1 (_pw : Bool) (cs : List Char) : Option (List Char) :=
  mCap mEps
    (mSeq (mCls Char.isAlpha)
      (mSeq (mRepGe supChar 1) (mLit ("private limited".data))))
    mEps cs

/-- `(?P<value>[A-Z][A-Za-z0-9 &]+\(PVT\)\s+LTD)` (line 146). -/
def supP2 (_pw : Bool) (cs : List Char) : Option (List Char) :=
  mCap mEps
    (mSeq (mCls Char.isAlpha)
      (mSeq (mRepGe supChar 1)
        (mSeq (mLit ("(pvt)".data)) (mSeq (mRepGe pyWs 1) (mLit ("ltd".data))))))
    mEps cs

/-- `(?P<value>[A-Z][A-Z ]+PLC)` (line 154). -/
def custAt (_pw : Bool) (cs : List Char) : Option (List Char) :=
  mCap mEps
    (mSeq (mCls Char.isAlpha) (mSeq (mRepGe alphaSpace 1) (mLit ("plc".data))))
    mEps cs

/-- `within\s+(?P<value>\d+\s+business\s+days)` (line 162). -/
def termsP1 (_pw : Bool) (cs : List Char) : Option (List Char) :=
  mCap (mSeq (mLit ("within".data)) (mRepGe pyWs 1))
    (mSeq (mRepGe Char.isDigit 1)
      (mSeq (mRepGe pyWs 1)
        (mSeq (mLit ("business".data)) (mSeq (mRepGe pyWs 1) (mLit ("days".data))))))
    mEps cs

/-- `(?P<value>\d+\s*days)` (line 163). -/
def termsP2 (_pw : Bool) (cs : List Char) : Option (List Char) :=
  mCap mEps
    (mSeq (mRepGe Char.isDigit 1) (mSeq (mRepGe pyWs 0) (mLit ("days".data))))
    mEps cs

/-- `(?P<value>[A-Z][A-Za-z ]+ Bank)` (line 170). -/
def bankAt (_pw : Bool) (cs : List Char) : Option (List Char) :=
  mCap mEps
    (mSeq (mCls Char.isAlpha)
      (mSeq (mRepGe alphaSpace 1)
        (mSeq (mCls (fun c => c = ' ')) (mLit ("bank".data)))))
    mEps cs

/-- `\bbranch[:\s]+(?P<value>[A-Za-z ]+)` (line 177). -/
def branchP1 (pw : Bool) (cs : List Char) : Option (List Char) :=
  if pw then none
  else
    mCap (mSeq (mLit ("branch".data)) (mRepGe colonWs 1)) (mRepGe alphaSpace 1) mEps cs

/-- `\b(?P<value>Attidiya)\b` (line 178). -/
def branchP2 (pw : Bool) (cs : List Char) : Option (List Char) :=
  if pw then none
  else mCap mEps (mLit ("attidiya".data)) mBoundNext cs

/-- `\b(?P<value>\d{8,})\b` (line 185). -/
def accountAt (pw : Bool) (cs : List Char) : Option (List Char) :=
  if pw then none
  else mCap mEps (mRepGe Char.isDigit 8) mBoundNext cs

/-- `(Payment to be transferred[^\n]*)` (line 192), searched on the raw text. -/
def payInstrAt (_pw : Bool) (cs : List Char) : Option (List Char) :=
  mCap mEps
    (mSeq (mLit ("payment to be transferred".data)) (mRepGe (fun c => c ≠ '\n') 0))
    mEps cs

/-- `_first_match(patterns, text)` (lines 44-52): try each pattern's search in
order; on the first match return the captured value, stripped. -/
def firstMatchF (pats : List (Bool → List Char → Option (List Char)))
    (cs : List Char) : Option String :=
  match pats with
  | [] => none
  | p :: rest =>
    match searchA p false cs with
    | some v => some (String.mk (pyStrip v))
    | none => firstMatchF rest cs

/-- `parse_invoice_text` (lines 55-215). -/
def parse_invoice_text (text : String) : InvoiceFields :=
  let normalized := collapseRuns spaceTab text.data
  let balance_due := firstMatchF [balanceAt] normalized
  { invoice_number := firstMatchF [invNoP1, invNoP2, invNoP3] normalized
    invoice_date := firstMatchF [dateP1, dateP2] normalized
    invoice_status := some (pyOr (firstMatchF [statusAt] normalized) "UNPAID")
    subtotal := firstMatchF [subtotalAt] normalized
    discount := firstMatchF [discountAt] normalized
    tax_rate := firstMatchF [taxRateAt] normalized
    total_tax := firstMatchF [totalTaxAt] normalized
    balance_due := balance_due
    total_amount := pyOrOpt balance_due (firstMatchF [totalP1, totalP2] normalized)
    currency := firstMatchF [curP1, curP2, curP3] normalized
    supplier_name := firstMatchF [supP1, supP2] normalized
    supplier_address := none
    supplier_email := none
    supplier_phone := none
    customer_name := firstMatchF [custAt] normalized
    billing_address := none
    shipping_address := none
    payment_terms := firstMatchF [termsP1, termsP2] normalized
    bank_name := firstMatchF [bankAt] normalized
    branch := firstMatchF [branchP1, branchP2] normalized
    account_number := firstMatchF [accountAt] normalized
    payment_instructions := firstMatchF [payInstrAt] text.data }

end InvoiceParse

namespace PyStr

/-- The list contains at least one non-whitespace character, so its Python
strip is nonempty. -/
def HasNonWs (l : List Char) : Prop := ∃ c ∈ l, pyWs c = false

theorem pyStrip_ne_nil {l : List Char} (h : HasNonWs l) : pyStrip l ≠ [] := by
  obtain ⟨c, hc, hw⟩ := h
  exact stripSet_ne_nil_of_mem hc hw

theorem not_pyWs_of_isDigit {c : Char} (h : c.isDigit = true) : pyWs c = false := by
  by_contra hc
  rw [Bool.not_eq_false] at hc
  simp only [pyWs, Bool.or_eq_true, decide_eq_true_eq] at hc
  rcases hc with ((((rfl | rfl) | rfl) | rfl) | rfl) | rfl <;> (revert h; decide)

theorem not_pyWs_of_isAlpha {c : Char} (h : c.isAlpha = true) : pyWs c = false := by
  by_contra hc
  rw [Bool.not_eq_false] at hc
  simp only [pyWs, Bool.or_eq_true, decide_eq_true_eq] at hc
  rcases hc with ((((rfl | rfl) | rfl) | rfl) | rfl) | rfl <;> (revert h; decide)

/-- Case folding cannot turn a non-whitespace character into whitespace, so a
case-insensitive literal match consumes non-whitespace wherever the literal
has non-whitespace. -/
theorem not_pyWs_of_toLower {c k : Char} (he : c.toLower = k) (hk : pyWs k = false) :
    pyWs c = false := by
  by_contra hc
  rw [Bool.not_eq_false] at hc
  simp only [pyWs, Bool.or_eq_true, decide_eq_true_eq] at hc
  rcases hc with ((((rfl | rfl) | rfl) | rfl) | rfl) | rfl <;>
    (rw [← he] at hk; revert hk; decide)

theorem hasNonWs_append_left {a b : List Char} (h : HasNonWs a) : HasNonWs (a ++ b) := by
  obtain ⟨c, hc, hw⟩ := h
  exact ⟨c, List.mem_append.mpr (Or.inl hc), hw⟩

theorem hasNonWs_append_right {a b : List Char} (h : HasNonWs b) : HasNonWs (a ++ b) := by
  obtain ⟨c, hc, hw⟩ := h
  exact ⟨c, List.mem_append.mpr (Or.inr hc), hw⟩

theorem hasNonWs_mRepGe {p : Char → Bool} {lo : Nat} {m v r : List Char}
    (hlo : 1 ≤ lo) (hp : ∀ c, p c = true → pyWs c = false)
    (h : (v, r) ∈ mRepGe p lo m) : HasNonWs v := by
  obtain ⟨hlen, hall, _⟩ := mem_mRepGe h
  cases v with
  | nil => simp at hlen; omega
  | cons c t => exact ⟨c, by simp, hp c (hall c (by simp))⟩

theorem hasNonWs_mRepB {p : Char → Bool} {lo hi : Nat} {m v r : List Char}
    (hlo : 1 ≤ lo) (hp : ∀ c, p c = true → pyWs c = false)
    (h : (v, r) ∈ mRepB p lo hi m) : HasNonWs v := by
  obtain ⟨hlen, _, hall, _⟩ := mem_mRepB h
  cases v with
  | nil => simp at hlen; omega
  | cons c t => exact ⟨c, by simp, hp c (hall c (by simp))⟩

theorem hasNonWs_mCls {p : Char → Bool} {m v r : List Char}
    (hp : ∀ c, p c = true → pyWs c = false)
    (h : (v, r) ∈ mCls p m) : HasNonWs v := by
  obtain ⟨c, hc, hv, _⟩ := mem_mCls h
  exact ⟨c, by rw [show v = [c] from hv]; simp, hp c hc⟩

theorem hasNonWs_mLit {k0 : Char} {kt m v r : List Char}
    (hk : pyWs k0.toLower = false)
    (h : (v, r) ∈ mLit (k0 :: kt) m) : HasNonWs v := by
  obtain ⟨hlen, _, hzip⟩ := mem_mLit h
  cases v with
  | nil => simp at hlen
  | cons c t =>
    have hcz : (c, k0) ∈ (c :: t).zip (k0 :: kt) := by simp [List.zip]
    have := hzip (c, k0) hcz
    exact ⟨c, by simp, not_pyWs_of_toLower (by simpa using this) hk⟩

theorem hasNonWs_mSeq_left {a b : M} {m v r : List Char}
    (ha : ∀ (m' v' r' : List Char), (v', r') ∈ a m' → HasNonWs v')
    (h : (v, r) ∈ mSeq a b m) : HasNonWs v := by
  obtain ⟨c1, c2, mm, rr, hq, h1, h2⟩ := mem_mSeq h
  rw [Prod.mk.injEq] at hq
  rw [hq.1]
  exact hasNonWs_append_left (ha m c1 mm h1)

theorem hasNonWs_mAlt {a b : M} {m v r : List Char}
    (ha : ∀ (m' v' r' : List Char), (v', r') ∈ a m' → HasNonWs v')
    (hb : ∀ (m' v' r' : List Char), (v', r') ∈ b m' → HasNonWs v')
    (h : (v, r) ∈ mAlt a b m) : HasNonWs v := by
  rcases mem_mAlt h with h1 | h1
  · exact ha m v r h1
  · exact hb m v r h1

theorem map_toLower_eq_of_zip : ∀ (v kw : List Char), v.length = kw.length →
    (∀ w ∈ v.zip kw, w.1.toLower = w.2.toLower) → lowerL v = lowerL kw := by
  intro v
  induction v with
  | nil =>
    intro kw h _
    cases kw with
    | nil => rfl
    | cons b bs => simp at h
  | cons a as ih =>
    intro kw hlen hz
    cases kw with
    | nil => simp at hlen
    | cons b bs =>
      have h1 : a.toLower = b.toLower := hz (a, b) (by simp [List.zip])
      have h2 : lowerL as = lowerL bs := by
        apply ih bs (by simpa using hlen)
        intro w hw
        exact hz w (by simp [List.zip]; right; simpa [List.zip] using hw)
      simp only [lowerL, List.map_cons]
      rw [h1]
      simpa [lowerL] using h2

theorem mLit_lowerL {kw m v r : List Char} (h : (v, r) ∈ mLit kw m) :
    lowerL v = lowerL kw ∧ m = v ++ r := by
  obtain ⟨hlen, hm, hzip⟩ := mem_mLit h
  exact ⟨map_toLower_eq_of_zip v kw hlen hzip, hm⟩

/-- Full decomposition of a committed capture, including the part after the
value (needed for trailing `\b` assertions). -/
theorem mCap_some_full {pre val post : M} {cs v : List Char}
    (h : mCap pre val post cs = some v) :
    ∃ c1 m r c3 r2, (c1, m) ∈ pre cs ∧ (v, r) ∈ val m ∧ (c3, r2) ∈ post r := by
  unfold mCap at h
  have hm := head?_mem h
  rw [List.mem_flatMap] at hm
  obtain ⟨q, hq, hm2⟩ := hm
  rw [List.mem_flatMap] at hm2
  obtain ⟨w, hw, hm3⟩ := hm2
  rw [List.mem_map] at hm3
  obtain ⟨u, hu, huv⟩ := hm3
  refine ⟨q.1, q.2, w.2, u.1, u.2, by simpa using hq, ?_, by simpa using hu⟩
  rw [← huv]
  simpa using hw

/-- Membership in `mBoundNext` certifies the next character is not a word
character (or the input ended). -/
theorem mem_mBoundNext_head {cs : List Char} {q : Cand}
    (h : q ∈ mBoundNext cs) :
    q = ([], cs) ∧ (∀ c t, cs = c :: t → wordChar c = false) := by
  refine ⟨mem_mBoundNext h, ?_⟩
  intro c t hct
  subst hct
  simp only [mBoundNext] at h
  cases hw : wordChar c
  · rfl
  · rw [hw] at h
    simp at h

end PyStr

namespace InvoiceParse

open PyStr

theorem invNumChar_ws {c : Char} (h : invNumChar c = true) : pyWs c = false := by
  simp only [invNumChar, Bool.or_eq_true, decide_eq_true_eq] at h
  rcases h with (((ha | hd) | rfl) | rfl) | rfl
  · exact not_pyWs_of_isAlpha ha
  · exact not_pyWs_of_isDigit hd
  · decide
  · decide
  · decide

theorem nonWsChar_ws {c : Char} (h : (!pyWs c) = true) : pyWs c = false := by
  rwa [Bool.not_eq_true'] at h

theorem invNumVal_nonWs : ∀ (m v r : List Char), (v, r) ∈ invNumVal m → HasNonWs v :=
  fun _ _ _ h => hasNonWs_mRepGe (le_refl 1) (fun _ hc => invNumChar_ws hc) h

theorem nonWsVal_nonWs : ∀ (m v r : List Char), (v, r) ∈ nonWsVal m → HasNonWs v :=
  fun _ _ _ h => hasNonWs_mRepGe (le_refl 1) (fun _ hc => nonWsChar_ws hc) h

theorem amtVal_nonWs : ∀ (m v r : List Char), (v, r) ∈ amtVal m → HasNonWs v :=
  fun _ _ _ h => hasNonWs_mSeq_left
    (fun _ _ _ h' => hasNonWs_mCls (fun _ hc => not_pyWs_of_isDigit hc) h') h

theorem dateVal_nonWs : ∀ (m v r : List Char), (v, r) ∈ dateVal m → HasNonWs v :=
  fun _ _ _ h => hasNonWs_mSeq_left
    (fun _ _ _ h' => hasNonWs_mRepB (le_refl 1) (fun _ hc => not_pyWs_of_isDigit hc) h') h

theorem taxRateVal_nonWs : ∀ (m v r : List Char), (v, r) ∈ taxRateVal m → HasNonWs v :=
  fun _ _ _ h => hasNonWs_mSeq_left
    (fun _ _ _ h' => hasNonWs_mRepGe (le_refl 1) (fun _ hc => not_pyWs_of_isDigit hc) h') h

theorem digitRepGe_nonWs {lo : Nat} (hlo : 1 ≤ lo) :
    ∀ (m v r : List Char), (v, r) ∈ mRepGe Char.isDigit lo m → HasNonWs v :=
  fun _ _ _ h => hasNonWs_mRepGe hlo (fun _ hc => not_pyWs_of_isDigit hc) h

theorem alphaHead_nonWs {b : M} :
    ∀ (m v r : List Char), (v, r) ∈ mSeq (mCls Char.isAlpha) b m → HasNonWs v :=
  fun _ _ _ h => hasNonWs_mSeq_left
    (fun _ _ _ h' => hasNonWs_mCls (fun _ hc => not_pyWs_of_isAlpha hc) h') h

theorem digitHead_nonWs {b : M} :
    ∀ (m v r : List Char), (v, r) ∈ mSeq (mRepGe Char.isDigit 1) b m → HasNonWs v :=
  fun _ _ _ h => hasNonWs_mSeq_left (fun _ _ _ h' => digitRepGe_nonWs (le_refl 1) _ _ _ h') h

/-- The `[A-Z]{0,3}\s?` prefix of `totVal` may be empty or a space, but the
mandatory `\d` that follows keeps the captured value non-blank. -/
theorem totVal_nonWs : ∀ (m v r : List Char), (v, r) ∈ totVal m → HasNonWs v := by
  intro m v r h
  obtain ⟨cA, c2, m1, r1, hq, hA, h2⟩ := mem_mSeq h
  rw [Prod.mk.injEq] at hq
  obtain ⟨cSp, c3, m2, r2, hq2, hSp, h3⟩ := mem_mSeq h2
  rw [Prod.mk.injEq] at hq2
  obtain ⟨cD, c4, m3, r3, hq3, hD, h4⟩ := mem_mSeq h3
  rw [Prod.mk.injEq] at hq3
  obtain ⟨d, hd, hcd, _⟩ := mem_mCls hD
  rw [hq.1, hq2.1, hq3.1]
  apply hasNonWs_append_right
  apply hasNonWs_append_right
  apply hasNonWs_append_left
  rw [show cD = [d] from hcd]
  exact ⟨d, by simp, not_pyWs_of_isDigit hd⟩

theorem litVal_nonWs {k0 : Char} {kt : List Char} (hk : pyWs k0.toLower = false) :
    ∀ (m v r : List Char), (v, r) ∈ mLit (k0 :: kt) m → HasNonWs v :=
  fun _ _ _ h => hasNonWs_mLit hk h

/-! ### Per-field nonemptiness of the raw captured value -/

theorem invNoP1_nonWs {pw : Bool} {cs v : List Char}
    (h : invNoP1 pw cs = some v) : HasNonWs v := by
  obtain ⟨c1, m, r, _, hval⟩ := mCap_some h
  exact invNumVal_nonWs m v r hval

theorem invNoP2_nonWs {pw : Bool} {cs v : List Char}
    (h : invNoP2 pw cs = some v) : HasNonWs v := by
  obtain ⟨c1, m, r, _, hval⟩ := mCap_some h
  exact invNumVal_nonWs m v r hval

theorem invNoP3_nonWs {pw : Bool} {cs v : List Char}
    (h : invNoP3 pw cs = some v) : HasNonWs v := by
  obtain ⟨c1, m, r, _, hval⟩ := mCap_some h
  exact nonWsVal_nonWs m v r hval

theorem dateP1_nonWs {pw : Bool} {cs v : List Char}
    (h : dateP1 pw cs = some v) : HasNonWs v := by
  obtain ⟨c1, m, r, _, hval⟩ := mCap_some h
  exact dateVal_nonWs m v r hval

theorem dateP2_nonWs {pw : Bool} {cs v : List Char}
    (h : dateP2 pw cs = some v) : HasNonWs v := by
  obtain ⟨c1, m, r, _, hval⟩ := mCap_some h
  exact dateVal_nonWs m v r hval

theorem subtotalAt_nonWs {pw : Bool} {cs v : List Char}
    (h : subtotalAt pw cs = some v) : HasNonWs v := by
  obtain ⟨c1, m, r, _, hval⟩ := mCap_some h
  exact amtVal_nonWs m v r hval

theorem discountAt_nonWs {pw : Bool} {cs v : List Char}
    (h : discountAt pw cs = some v) : HasNonWs v := by
  obtain ⟨c1, m, r, _, hval⟩ := mCap_some h
  exact amtVal_nonWs m v r hval

theorem taxRateAt_nonWs {pw : Bool} {cs v : List Char}
    (h : taxRateAt pw cs = some v) : HasNonWs v := by
  obtain ⟨c1, m, r, _, hval⟩ := mCap_some h
  exact taxRateVal_nonWs m v r hval

theorem totalTaxAt_nonWs {pw : Bool} {cs v : List Char}
    (h : totalTaxAt pw cs = some v) : HasNonWs v := by
  obtain ⟨c1, m, r, _, hval⟩ := mCap_some h
  exact amtVal_nonWs m v r hval

theorem balanceAt_nonWs {pw : Bool} {cs v : List Char}
    (h : balanceAt pw cs = some v) : HasNonWs v := by
  obtain ⟨c1, m, r, _, hval⟩ := mCap_some h
  exact amtVal_nonWs m v r hval

theorem totalP1_nonWs {pw : Bool} {cs v : List Char}
    (h : totalP1 pw cs = some v) : HasNonWs v := by
  obtain ⟨c1, m, r, _, hval⟩ := mCap_some h
  exact totVal_nonWs m v r hval

theorem totalP2_nonWs {pw : Bool} {cs v : List Char}
    (h : totalP2 pw cs = some v) : HasNonWs v := by
  unfold totalP2 at h
  cases hpw : pw
  · rw [hpw] at h
    simp only [Bool.false_eq_true, if_false] at h
    obtain ⟨c1, m, r, _, hval⟩ := mCap_some h
    exact totVal_nonWs m v r hval
  · rw [hpw] at h
    simp at h

theorem curP1_nonWs {pw : Bool} {cs v : List Char}
    (h : curP1 pw cs = some v) : HasNonWs v := by
  unfold curP1 at h
  cases hpw : pw
  · rw [hpw] at h
    simp only [Bool.false_eq_true, if_false] at h
    obtain ⟨c1, m, r, _, hval⟩ := mCap_some h
    rcases mem_mAlt hval with h1 | h1
    · exact litVal_nonWs (by decide) _ _ _ h1
    rcases mem_mAlt h1 with h2 | h2
    · exact litVal_nonWs (by decide) _ _ _ h2
    rcases mem_mAlt h2 with h3 | h3
    · exact litVal_nonWs (by decide) _ _ _ h3
    rcases mem_mAlt h3 with h4 | h4
    · exact litVal_nonWs (by decide) _ _ _ h4
    · exact litVal_nonWs (by decide) _ _ _ h4
  · rw [hpw] at h
    simp at h

theorem curP2_nonWs {pw : Bool} {cs v : List Char}
    (h : curP2 pw cs = some v) : HasNonWs v := by
  obtain ⟨c1, m, r, _, hval⟩ := mCap_some h
  exact litVal_nonWs (by decide) m v r hval

theorem curP3_nonWs {pw : Bool} {cs v : List Char}
    (h : curP3 pw cs = some v) : HasNonWs v := by
  obtain ⟨c1, m, r, _, hval⟩ := mCap_some h
  exact hasNonWs_mCls (fun c hc => by rw [decide_eq_true_eq] at hc; subst hc; decide) hval

theorem supP1_nonWs {pw : Bool} {cs v : List Char}
    (h : supP1 pw cs = some v) : HasNonWs v := by
  obtain ⟨c1, m, r, _, hval⟩ := mCap_some h
  exact alphaHead_nonWs m v r hval

theorem supP2_nonWs {pw : Bool} {cs v : List Char}
    (h : supP2 pw cs = some v) : HasNonWs v := by
  obtain ⟨c1, m, r, _, hval⟩ := mCap_some h
  exact alphaHead_nonWs m v r hval

theorem custAt_nonWs {pw : Bool} {cs v : List Char}
    (h : custAt pw cs = some v) : HasNonWs v := by
  obtain ⟨c1, m, r, _, hval⟩ := mCap_some h
  exact alphaHead_nonWs m v r hval

theorem termsP1_nonWs {pw : Bool} {cs v : List Char}
    (h : termsP1 pw cs = some v) : HasNonWs v := by
  obtain ⟨c1, m, r, _, hval⟩ := mCap_some h
  exact digitHead_nonWs m v r hval

theorem termsP2_nonWs {pw : Bool} {cs v : List Char}
    (h : termsP2 pw cs = some v) : HasNonWs v := by
  obtain ⟨c1, m, r, _, hval⟩ := mCap_some h
  exact digitHead_nonWs m v r hval

theorem bankAt_nonWs {pw : Bool} {cs v : List Char}
    (h : bankAt pw cs = some v) : HasNonWs v := by
  obtain ⟨c1, m, r, _, hval⟩ := mCap_some h
  exact alphaHead_nonWs m v r hval

theorem accountAt_nonWs {pw : Bool} {cs v : List Char}
    (h : accountAt pw cs = some v) : HasNonWs v := by
  unfold accountAt at h
  cases hpw : pw
  · rw [hpw] at h
    simp only [Bool.false_eq_true, if_false] at h
    obtain ⟨c1, m, r, _, hval⟩ := mCap_some h
    exact digitRepGe_nonWs (by omega) m v r hval
  · rw [hpw] at h
    simp at h

theorem payInstrAt_nonWs {pw : Bool} {cs v : List Char}
    (h : payInstrAt pw cs = some v) : HasNonWs v := by
  obtain ⟨c1, m, r, _, hval⟩ := mCap_some h
  exact hasNonWs_mSeq_left (fun _ _ _ h' => litVal_nonWs (by decide) _ _ _ h') hval

/-! ### `_first_match` output properties -/

theorem firstMatchF_trimmed : ∀ (pats : List (Bool → List Char → Option (List Char)))
    (cs : List Char) (s : String), firstMatchF pats cs = some s →
    pyStrip s.data = s.data := by
  intro pats
  induction pats with
  | nil =>
    intro cs s h
    simp [firstMatchF] at h
  | cons p rest ih =>
    intro cs s h
    rw [firstMatchF] at h
    cases hs : searchA p false cs with
    | some v =>
      rw [hs] at h
      simp only [Option.some_inj] at h
      rw [← h]
      exact stripSet_idem pyWs v
    | none =>
      rw [hs] at h
      exact ih cs s h

theorem firstMatchF_good (pats : List (Bool → List Char → Option (List Char)))
    (hg : ∀ p ∈ pats, ∀ (pw : Bool) (m v : List Char), p pw m = some v → HasNonWs v) :
    ∀ (cs : List Char) (s : String), firstMatchF pats cs = some s →
    pyStrip s.data = s.data ∧ s ≠ "" := by
  induction pats with
  | nil =>
    intro cs s h
    simp [firstMatchF] at h
  | cons p rest ih =>
    intro cs s h
    rw [firstMatchF] at h
    cases hs : searchA p false cs with
    | some v =>
      rw [hs] at h
      simp only [Option.some_inj] at h
      obtain ⟨i, _, hf⟩ := searchA_some_exists hs
      have hnw : HasNonWs v := hg p (by simp) _ _ _ hf
      have hne := pyStrip_ne_nil hnw
      refine ⟨by rw [← h]; exact stripSet_idem pyWs v, ?_⟩
      rw [← h]
      intro heq
      have : (String.mk (pyStrip v)).data = ("" : String).data := by rw [heq]
      exact hne this
    | none =>
      rw [hs] at h
      exact ih (fun q hq => hg q (by simp [hq])) cs s h

end InvoiceParse

namespace InvoiceParse

open PyStr

/-! ### Word-bounded status-keyword occurrences (claim C10 machinery) -/

/-- The four status keywords, in the order of the source's alternation. -/
def statusKws : List (List Char) :=
  [("unpaid".data), ("paid".data), ("overdue".data), ("cancelled".data)]

/-- The trailing `\b` after a keyword ending at offset `n` of the suffix. -/
def boundAfterB (l : List Char) (n : Nat) : Bool :=
  match (l.drop n).head? with
  | some c => !wordChar c
  | none => true

/-- `kw` occurs at index `i` of `cs`, case-insensitively and `\b`-bounded on
both sides: the extensional reading of "the text contains the status keyword
`kw` (as a word) at position `i`". -/
def kwOccursAtB (cs : List Char) (i : Nat) (kw : List Char) : Bool :=
  (lowerL ((cs.drop i).take kw.length) == kw) &&
  (match i with
   | 0 => true
   | j + 1 =>
     match cs.get? j with
     | some c => !wordChar c
     | none => false) &&
  boundAfterB (cs.drop i) kw.length

theorem zip_of_map_toLower : ∀ (v kw : List Char), lowerL v = lowerL kw →
    ∀ w ∈ v.zip kw, w.1.toLower = w.2.toLower := by
  intro v
  induction v with
  | nil =>
    intro kw _ w hw
    simp [List.zip] at hw
  | cons a as ih =>
    intro kw h w hw
    cases kw with
    | nil => simp [List.zip] at hw
    | cons b bs =>
      simp only [lowerL, List.map_cons, List.cons.injEq] at h
      rcases List.mem_cons.mp (by simpa [List.zip] using hw) with h1 | h1
      · rw [h1]
        exact h.1
      · exact ih bs (by simp [lowerL, h.2]) w (by simpa [List.zip] using h1)

/-- A case-insensitive literal whose lowercase prefix matches commits to the
`take/drop` split. -/
theorem mLit_of_lower {kw cs : List Char} (hkl : lowerL kw = kw)
    (h : lowerL (cs.take kw.length) = kw) :
    mLit kw cs = [(cs.take kw.length, cs.drop kw.length)] := by
  unfold mLit
  rw [if_pos]
  constructor
  · have := congrArg List.length h
    simpa [lowerL] using this
  · exact zip_of_map_toLower _ _ (h.trans hkl.symm)

theorem mLit_empty_of_lower_ne {kw cs : List Char} (hkl : lowerL kw = kw)
    (h : lowerL (cs.take kw.length) ≠ kw) : mLit kw cs = [] := by
  unfold mLit
  rw [if_neg]
  rintro ⟨hlen, hzip⟩
  exact h ((map_toLower_eq_of_zip _ _ hlen hzip).trans hkl)

/-- If a lowercased `take` equals a nonempty keyword, the input starts with a
character folding to the keyword's first character. -/
theorem take_head_lower {cs kt : List Char} {n : Nat} {k0 : Char}
    (h : lowerL (cs.take n) = k0 :: kt) :
    ∃ c0 t, cs = c0 :: t ∧ c0.toLower = k0 := by
  cases cs with
  | nil => simp [lowerL] at h
  | cons c0 t =>
    cases n with
    | zero => simp [lowerL] at h
    | succ m =>
      simp only [List.take_succ_cons, lowerL, List.map_cons, List.cons.injEq] at h
      exact ⟨c0, t, rfl, h.1⟩

theorem mBoundNext_of_bound {l : List Char}
    (h : (match l.head? with | some c => !wordChar c | none => true) = true) :
    mBoundNext l = [([], l)] := by
  cases l with
  | nil => rfl
  | cons c t =>
    simp only [List.head?] at h
    rw [Bool.not_eq_true'] at h
    show (if wordChar c = true then [] else [([], c :: t)]) = [([], c :: t)]
    rw [h]
    simp

/-- Forward characterization of the status matcher: a committed match is a
word-bounded, case-insensitive occurrence of one of the four keywords at the
start of the suffix. -/
theorem statusAt_some_char {pw : Bool} {cs v : List Char}
    (h : statusAt pw cs = some v) :
    pw = false ∧ ∃ kw ∈ statusKws, v = cs.take kw.length ∧ lowerL v = kw ∧
      boundAfterB cs kw.length = true := by
  unfold statusAt at h
  cases hpw : pw
  · rw [hpw] at h
    simp only [Bool.false_eq_true, if_false] at h
    refine ⟨rfl, ?_⟩
    obtain ⟨c1, m, r, c3, r2, hpre, hval, hpost⟩ := mCap_some_full h
    have hm : m = cs := by
      have := mem_mEps hpre
      rw [Prod.mk.injEq] at this
      exact this.2
    rw [hm] at hval
    have hbound := mem_mBoundNext_head hpost
    have main : ∀ kw : List Char, lowerL kw = kw → (v, r) ∈ mLit kw cs →
        v = cs.take kw.length ∧ lowerL v = kw ∧ boundAfterB cs kw.length = true := by
      intro kw hkl hmem
      obtain ⟨hlow, hcs⟩ := mLit_lowerL hmem
      obtain ⟨hlen, _, _⟩ := mem_mLit hmem
      have hvtake : v = cs.take kw.length := by
        rw [hcs, ← hlen, List.take_left]
      have hdrop : cs.drop kw.length = r := by
        rw [hcs, ← hlen, List.drop_left]
      refine ⟨hvtake, hlow.trans hkl, ?_⟩
      unfold boundAfterB
      rw [hdrop]
      cases hr : r with
      | nil => rfl
      | cons c t =>
        simp only [List.head?]
        rw [hbound.2 c t hr]
        rfl
    rcases mem_mAlt hval with h1 | h1
    · exact ⟨_, by simp [statusKws], main _ (by decide) h1⟩
    rcases mem_mAlt h1 with h2 | h2
    · exact ⟨_, by simp [statusKws], main _ (by decide) h2⟩
    rcases mem_mAlt h2 with h3 | h3
    · exact ⟨_, by simp [statusKws], main _ (by decide) h3⟩
    · exact ⟨_, by simp [statusKws], main _ (by decide) h3⟩
  · rw [hpw] at h
    simp at h

/-- Backward: a word-bounded occurrence of a keyword at the suffix start makes
the status matcher commit to it (distinct first letters make the four
alternatives mutually exclusive). -/
theorem statusAt_some_of {cs kw : List Char} (hkw : kw ∈ statusKws)
    (hmatch : lowerL (cs.take kw.length) = kw)
    (hb : boundAfterB cs kw.length = true) :
    statusAt false cs = some (cs.take kw.length) := by
  have hbound : mBoundNext (cs.drop kw.length) = [([], cs.drop kw.length)] := by
    apply mBoundNext_of_bound
    unfold boundAfterB at hb
    exact hb
  unfold statusAt
  simp only [Bool.false_eq_true, if_false]
  unfold mCap mEps mAlt
  simp only [List.flatMap_cons, List.flatMap_nil, List.append_nil]
  simp only [statusKws, List.mem_cons, List.not_mem_nil, or_false] at hkw
  rcases hkw with rfl | rfl | rfl | rfl
  · rw [mLit_of_lower (by decide) hmatch]
    have hb6 : mBoundNext (cs.drop 6) = [([], cs.drop 6)] := hbound
    simp [hb6]
  · have hu : mLit ("unpaid".data) cs = [] := by
      apply mLit_empty_of_lower_ne (by decide)
      intro hun
      obtain ⟨c0, t, hcs, hc0⟩ := take_head_lower hmatch
      obtain ⟨c0', t', hcs', hc0'⟩ := take_head_lower hun
      rw [hcs] at hcs'
      injection hcs' with he _
      rw [he] at hc0
      rw [hc0] at hc0'
      exact absurd hc0' (by decide)
    rw [hu, mLit_of_lower (by decide) hmatch]
    have hb4 : mBoundNext (cs.drop 4) = [([], cs.drop 4)] := hbound
    simp [hb4]
  · have hu : mLit ("unpaid".data) cs = [] := by
      apply mLit_empty_of_lower_ne (by decide)
      intro hun
      obtain ⟨c0, t, hcs, hc0⟩ := take_head_lower hmatch
      obtain ⟨c0', t', hcs', hc0'⟩ := take_head_lower hun
      rw [hcs] at hcs'
      injection hcs' with he _
      rw [he] at hc0
      rw [hc0] at hc0'
      exact absurd hc0' (by decide)
    have hp : mLit ("paid".data) cs = [] := by
      apply mLit_empty_of_lower_ne (by decide)
      intro hun
      obtain ⟨c0, t, hcs, hc0⟩ := take_head_lower hmatch
      obtain ⟨c0', t', hcs', hc0'⟩ := take_head_lower hun
      rw [hcs] at hcs'
      injection hcs' with he _
      rw [he] at hc0
      rw [hc0] at hc0'
      exact absurd hc0' (by decide)
    rw [hu, hp, mLit_of_lower (by decide) hmatch]
    have hb7 : mBoundNext (cs.drop 7) = [([], cs.drop 7)] := hbound
    simp [hb7]
  · have hu : mLit ("unpaid".data) cs = [] := by
      apply mLit_empty_of_lower_ne (by decide)
      intro hun
      obtain ⟨c0, t, hcs, hc0⟩ := take_head_lower hmatch
      obtain ⟨c0', t', hcs', hc0'⟩ := take_head_lower hun
      rw [hcs] at hcs'
      injection hcs' with he _
      rw [he] at hc0
      rw [hc0] at hc0'
      exact absurd hc0' (by decide)
    have hp : mLit ("paid".data) cs = [] := by
      apply mLit_empty_of_lower_ne (by decide)
      intro hun
      obtain ⟨c0, t, hcs, hc0⟩ := take_head_lower hmatch
      obtain ⟨c0', t', hcs', hc0'⟩ := take_head_lower hun
      rw [hcs] at hcs'
      injection hcs' with he _
      rw [he] at hc0
      rw [hc0] at hc0'
      exact absurd hc0' (by decide)
    have ho : mLit ("overdue".data) cs = [] := by
      apply mLit_empty_of_lower_ne (by decide)
      intro hun
      obtain ⟨c0, t, hcs, hc0⟩ := take_head_lower hmatch
      obtain ⟨c0', t', hcs', hc0'⟩ := take_head_lower hun
      rw [hcs] at hcs'
      injection hcs' with he _
      rw [he] at hc0
      rw [hc0] at hc0'
      exact absurd hc0' (by decide)
    rw [hu, hp, ho, mLit_of_lower (by decide) hmatch]
    have hb9 : mBoundNext (cs.drop 9) = [([], cs.drop 9)] := hbound
    simp [hb9]

end InvoiceParse

namespace PyStr

/-- Splitting at an explicit `\n` after a boundary-free segment. -/
theorem splitLinesGo_append : ∀ (xs : List Char), (∀ c ∈ xs, lineBreak c = false) →
    ∀ (acc rest : List Char),
    splitLinesGo acc (xs ++ '\n' :: rest) = (acc.reverse ++ xs) :: splitLinesGo [] rest := by
  intro xs
  induction xs with
  | nil =>
    intro _ acc rest
    rw [List.nil_append, List.append_nil]
    rw [splitLinesGo.eq_def]
    simp [lineBreak]
  | cons x xt ih =>
    intro hnb acc rest
    have hx : lineBreak x = false := hnb x (by simp)
    have hxcr : ¬(x = '\x0d') := by
      intro he
      rw [he] at hx
      revert hx
      decide
    rw [List.cons_append, splitLinesGo.eq_def]
    simp only
    rw [if_neg hxcr, if_neg (by rw [hx]; exact Bool.false_ne_true)]
    rw [ih (fun c hc => hnb c (by simp [hc])) (x :: acc) rest]
    simp

theorem findIdxO_eq_none {p : α → Bool} {l : List α}
    (h : ∀ a ∈ l, p a = false) : findIdxO p l = none := by
  induction l with
  | nil => rfl
  | cons a as ih =>
    rw [findIdxO]
    rw [if_neg (by rw [h a (by simp)]; exact Bool.false_ne_true)]
    rw [ih (fun b hb => h b (by simp [hb]))]
    rfl

theorem findIdxO_eq_some {p : α → Bool} : ∀ {l : List α} {i : Nat},
    (∃ a, l[i]? = some a ∧ p a = true) →
    (∀ j, j < i → ∀ a, l[j]? = some a → p a = false) →
    findIdxO p l = some i := by
  intro l
  induction l with
  | nil =>
    intro i h1 _
    obtain ⟨a, ha, _⟩ := h1
    simp at ha
  | cons x xs ih =>
    intro i h1 h2
    cases i with
    | zero =>
      obtain ⟨a, ha, hpa⟩ := h1
      simp only [List.getElem?_cons_zero, Option.some_inj] at ha
      rw [findIdxO, if_pos (by rw [← ha] at hpa; exact hpa)]
    | succ k =>
      have hx : p x = false := h2 0 (by omega) x (by simp)
      rw [findIdxO, if_neg (by rw [hx]; exact Bool.false_ne_true)]
      rw [ih (by obtain ⟨a, ha, hpa⟩ := h1; exact ⟨a, by simpa using ha, hpa⟩)
        (fun j hj a ha => h2 (j + 1) (by omega) a (by simpa using ha))]
      rfl

/-- Every `findall` token has the `money_pattern` shape, so its comma-free
form always converts (`float` cannot raise on it). -/
theorem moneyFindAllGo_wf : ∀ (n : Nat) (l tok : List Char),
    tok ∈ moneyFindAllGo n l →
    (toCents (tok.filter (fun c => c ≠ ','))).isSome = true := by
  intro n
  induction n with
  | zero =>
    intro l tok h
    simp [moneyFindAllGo] at h
  | succ m ih =>
    intro l tok h
    cases l with
    | nil => simp [moneyFindAllGo] at h
    | cons c rest =>
      rw [moneyFindAllGo] at h
      cases hma : moneyAt (c :: rest) with
      | none =>
        rw [hma] at h
        exact ih rest tok h
      | some w =>
        obtain ⟨tok2, r⟩ := w
        rw [hma] at h
        simp only [List.mem_cons] at h
        rcases h with rfl | h
        · obtain ⟨c2, run, d1, d2, htok, _, hc2, hrun, hd1, hd2⟩ := moneyAt_spec hma
          exact toCents_of_moneyTok ⟨c2, run, d1, d2, htok, hc2, hrun, hd1, hd2⟩
        · exact ih r tok h

theorem moneyFindAll_wf {l tok : List Char} (h : tok ∈ moneyFindAll l) :
    (toCents (tok.filter (fun c => c ≠ ','))).isSome = true :=
  moneyFindAllGo_wf l.length l tok h

end PyStr

namespace TextParse

open PyStr

/-- A successful header search implies both the `description` and `qty`
tokens occur in the lowercased line, because the header regex contains them
as literals. -/
theorem headerLine_contains {l : List Char} (h : headerLine l = true) :
    containsSub ("description".data) (lowerL l) = true ∧
    containsSub ("qty".data) (lowerL l) = true := by
  obtain ⟨pre, suf, hls, hm⟩ := searchM_exists h
  obtain ⟨q, hq⟩ := List.exists_mem_of_ne_nil _ hm
  obtain ⟨c1, c2, m1, r1, hq1, h1, h2⟩ := mem_mSeq hq
  obtain ⟨hlow1, hsuf1⟩ := mLit_lowerL h1
  obtain ⟨cw, c3, m2, r2, hq2, hw, h3⟩ := mem_mSeq h2
  have hm1 : m1 = cw ++ m2 := (mem_mRepGe hw).2.2
  obtain ⟨c4, c5, m3, r3, hq3, h4, _⟩ := mem_mSeq h3
  obtain ⟨hlow2, hsuf2⟩ := mLit_lowerL h4
  subst hls
  have hl : pre ++ suf = (pre ++ c1) ++ (cw ++ (c4 ++ m3)) := by
    rw [hsuf1, hm1, hsuf2]
    simp [List.append_assoc]
  have hd : lowerL c1 = "description".data := hlow1.trans (by decide)
  have hqty : lowerL c4 = "qty".data := hlow2.trans (by decide)
  constructor
  · apply containsSub_of_exists (lowerL pre) (lowerL (cw ++ (c4 ++ m3)))
    rw [hl, ← hd]
    simp [lowerL_append, List.append_assoc]
  · apply containsSub_of_exists (lowerL ((pre ++ c1) ++ cw)) (lowerL m3)
    rw [hl, ← hqty]
    simp [lowerL_append, List.append_assoc]

end TextParse

namespace InvoiceParse

open PyStr

theorem statusKws_ne_nil : ∀ kw ∈ statusKws, kw ≠ [] := by decide

theorem statusKws_lower : ∀ kw ∈ statusKws, lowerL kw = kw := by decide

theorem statusKws_nonws : ∀ kw ∈ statusKws, ∀ k ∈ kw, pyWs k = false := by decide

/-- A committed status match at scan offset `i` is a word-bounded keyword
occurrence at `i`. -/
theorem occurs_of_statusAt_some {cs : List Char} {i : Nat} {v : List Char}
    (hf : statusAt (pwAt false cs i) (cs.drop i) = some v) :
    ∃ kw ∈ statusKws, kwOccursAtB cs i kw = true ∧ lowerL v = kw ∧
      v = (cs.drop i).take kw.length := by
  obtain ⟨hpw, kw, hkw, hvtake, hlow, hbound⟩ := statusAt_some_char hf
  refine ⟨kw, hkw, ?_, hlow, hvtake⟩
  have hkwne : kw ≠ [] := statusKws_ne_nil kw hkw
  unfold kwOccursAtB
  rw [Bool.and_eq_true, Bool.and_eq_true]
  refine ⟨⟨?_, ?_⟩, hbound⟩
  · rw [← hvtake]
    simp [hlow]
  · cases i with
    | zero => rfl
    | succ j =>
      have hvne : v ≠ [] := by
        intro h0
        rw [h0] at hlow
        exact hkwne hlow.symm
      have hdne : cs.drop (j + 1) ≠ [] := by
        intro h0
        rw [h0] at hvtake
        rw [List.take_nil] at hvtake
        exact hvne hvtake
      have hlt : j + 1 ≤ cs.length := by
        by_contra hcon
        push_neg at hcon
        exact hdne (List.drop_eq_nil_iff.mpr (by omega))
      have hj : j < cs.length := by omega
      obtain ⟨c, hcc⟩ : ∃ c, cs.get? j = some c := by
        cases hg : cs.get? j with
        | none =>
          rw [List.get?_eq_none] at hg
          omega
        | some c => exact ⟨c, rfl⟩
      have hpw' : (match cs.get? j with
          | some c => wordChar c
          | none => false) = false := hpw
      rw [hcc] at hpw'
      simp only at hpw'
      show (match cs.get? j with
        | some c => !wordChar c
        | none => false) = true
      rw [hcc]
      simp [hpw']

/-- Conversely, a word-bounded occurrence at `i` makes the scanner's anchored
matcher at `i` commit. -/
theorem statusAt_of_occurs {cs kw : List Char} {i : Nat} (hkw : kw ∈ statusKws)
    (hocc : kwOccursAtB cs i kw = true) :
    statusAt (pwAt false cs i) (cs.drop i) = some ((cs.drop i).take kw.length) := by
  unfold kwOccursAtB at hocc
  rw [Bool.and_eq_true, Bool.and_eq_true] at hocc
  obtain ⟨⟨hbeq, hbefore⟩, hafter⟩ := hocc
  have hmatch : lowerL ((cs.drop i).take kw.length) = kw := by simpa using hbeq
  have hpw : pwAt false cs i = false := by
    cases i with
    | zero => rfl
    | succ j =>
      have hbefore' : (match cs.get? j with
          | some c => !wordChar c
          | none => false) = true := hbefore
      cases hcc : cs.get? j with
      | none =>
        rw [hcc] at hbefore'
        simp at hbefore'
      | some c =>
        rw [hcc] at hbefore'
        simp only at hbefore'
        show (match cs.get? j with
          | some c => wordChar c
          | none => false) = false
        rw [hcc]
        simp only
        rwa [Bool.not_eq_true'] at hbefore' 
  rw [hpw]
  exact statusAt_some_of hkw hmatch hafter

end InvoiceParse

namespace TextParse

open PyStr

/-- Under the join conditions, the row description is the pending line, a
single space, and the current description candidate. -/
theorem rowDesc_join {line pending c : List Char}
    (hc : currentDescOf line = c) (hpne : pending ≠ []) (hcne : c ≠ [])
    (hstrip : pyStrip (pending ++ ' ' :: c) = pending ++ ' ' :: c)
    (has : endsWithL (" as".data) (lowerL (pending ++ ' ' :: c)) = false) :
    rowDesc line pending = pending ++ ' ' :: c := by
  have hd0 : (if pending ≠ [] ∧ c ≠ [] then pending ++ ' ' :: c
      else if c ≠ [] then c else if pending ≠ [] then pending else []) =
      pending ++ ' ' :: c := by
    rw [if_pos (⟨hpne, hcne⟩ : pending ≠ [] ∧ c ≠ [])]
  simp only [rowDesc, hc, hd0, hstrip, has, Bool.false_eq_true, if_false]

/-- One loop step on a line with at least two monetary tokens reduces to the
row-emission decision, with the pending line unchanged in the recursion. -/
theorem processTP_cons_row {line : List Char} {rest : List (List Char)}
    {pending totTok unitTok : List Char} {more : List (List Char)}
    (hne : line ≠ []) (hterm : tpTerminal line = false)
    (hrev : (moneyFindAll line).reverse = totTok :: unitTok :: more) :
    processTP (line :: rest) pending =
      (match rowEmit line pending unitTok totTok with
       | some item => item :: processTP rest pending
       | none => processTP rest pending) := by
  rw [processTP]
  rw [if_neg hne]
  rw [if_neg (by rw [hterm]; exact Bool.false_ne_true)]
  simp only [hrev]

/-- One loop step on a non-terminal line with fewer than two monetary tokens:
no item is emitted and the line becomes the new pending continuation. -/
theorem processTP_cons_pending {line : List Char} {rest : List (List Char)}
    {pending : List Char}
    (hne : line ≠ []) (hterm : tpTerminal line = false)
    (hlt : (moneyFindAll line).length < 2) :
    processTP (line :: rest) pending = processTP rest line := by
  rw [processTP]
  rw [if_neg hne]
  rw [if_neg (by rw [hterm]; exact Bool.false_ne_true)]
  cases hrev : (moneyFindAll line).reverse with
  | nil => simp only
  | cons a t =>
    cases t with
    | nil => simp only
    | cons b t2 =>
      exfalso
      have := congrArg List.length hrev
      rw [List.length_reverse] at this
      simp at this
      omega

theorem rowEmit_some_of {line pending unitTok totTok : List Char}
    (hlen : ¬ (rowDesc line pending).length < 10)
    (hu : (toCents (commaFree unitTok)).isSome = true)
    (ht : (toCents (commaFree totTok)).isSome = true) :
    ∃ u t, rowEmit line pending unitTok totTok =
      some ⟨String.mk (rowDesc line pending), u, t⟩ := by
  unfold rowEmit
  rw [if_neg hlen]
  obtain ⟨u, hu'⟩ := Option.isSome_iff_exists.mp hu
  obtain ⟨t, ht'⟩ := Option.isSome_iff_exists.mp ht
  rw [hu', ht']
  exact ⟨u, t, rfl⟩

theorem rowEmit_none_short {line pending unitTok totTok : List Char}
    (hlen : (rowDesc line pending).length < 10) :
    rowEmit line pending unitTok totTok = none := by
  unfold rowEmit
  rw [if_pos hlen]

end TextParse

namespace PyStr

/-- A string whose lowercasing is a fully non-whitespace word is unchanged by
`strip()`. -/
theorem strip_id_of_lower_nonws {v kw : List Char} (h : lowerL v = kw)
    (hkw : ∀ k ∈ kw, pyWs k = false) : pyStrip v = v := by
  apply stripSet_eq_self_of_none
  intro c hc
  have hmem : c.toLower ∈ kw := by
    rw [← h]
    exact List.mem_map_of_mem _ hc
  exact not_pyWs_of_toLower rfl (hkw _ hmem)

end PyStr

namespace InvoiceParse

open PyStr

/-- An occurrence of a nonempty keyword lies inside the text. -/
theorem occurs_lt_length {cs kw : List Char} {i : Nat} (hne : kw ≠ [])
    (hocc : kwOccursAtB cs i kw = true) : i < cs.length := by
  unfold kwOccursAtB at hocc
  rw [Bool.and_eq_true, Bool.and_eq_true] at hocc
  have hbeq : lowerL ((cs.drop i).take kw.length) = kw := by
    have := hocc.1.1
    simpa using this
  by_contra hcon
  push_neg at hcon
  have hdrop : cs.drop i = [] := List.drop_eq_nil_iff.mpr hcon
  rw [hdrop, List.take_nil] at hbeq
  exact hne (by simpa [lowerL] using hbeq.symm)

/-- The exception-aware header-field extractor; `parse_invoice_text` runs no
fallible primitive (its regex searches and `strip` calls cannot raise), so
the computation is pure inside `Except`. -/
def parse_invoice_textE (text : String) : Except String InvoiceFields := do
  pure (parse_invoice_text text)

end InvoiceParse

namespace PyStr

theorem pyOr_some (t d : String) : pyOr (some t) d = if t = "" then d else t := rfl

theorem pyOr_none (d : String) : pyOr none d = d := rfl

theorem pyOrOpt_some (t : String) (b : Option String) :
    pyOrOpt (some t) b = if t = "" then b else some t := rfl

theorem pyOrOpt_none (b : Option String) : pyOrOpt none b = b := rfl

end PyStr

namespace InvoiceParse

open PyStr

/-- A committed status match contains a non-whitespace character. -/
theorem statusAt_nonWs {pw : Bool} {cs v : List Char}
    (h : statusAt pw cs = some v) : HasNonWs v := by
  obtain ⟨-, kw, hkw, -, hlow, -⟩ := statusAt_some_char h
  have hkne : kw ≠ [] := statusKws_ne_nil kw hkw
  cases v with
  | nil =>
    exact absurd (show kw = [] from (show ([] : List Char) = kw from hlow).symm) hkne
  | cons c rest =>
    refine ⟨c, List.mem_cons_self c rest, ?_⟩
    have hmem : c.toLower ∈ kw := by
      rw [← hlow]
      exact List.mem_map_of_mem _ (List.mem_cons_self c rest)
    exact not_pyWs_of_toLower rfl (statusKws_nonws kw hkw _ hmem)

end InvoiceParse

open PyStr
open InvoiceParse

/-- An optional field value that is either absent or, when present, a `strip`-
fixed (trimmed) non-empty string: the invariant the spec states for every
attribute. -/
def GoodOpt (o : Option String) : Prop :=
  ∀ s : String, o = some s → pyStrip s.data = s.data ∧ s ≠ ""

/-- An optional field value that is either absent or trimmed, but possibly the
empty string. -/
def TrimmedOpt (o : Option String) : Prop :=
  ∀ s : String, o = some s → pyStrip s.data = s.data

theorem nonWs1 (a : Bool → List Char → Option (List Char))
    (ha : ∀ (pw : Bool) (m v : List Char), a pw m = some v → HasNonWs v) :
    ∀ p ∈ [a], ∀ (pw : Bool) (m v : List Char), p pw m = some v → HasNonWs v := by
  intro p hp
  rcases List.mem_cons.mp hp with rfl | hp2
  · exact ha
  · exact absurd hp2 (List.not_mem_nil p)

theorem nonWs2 (a b : Bool → List Char → Option (List Char))
    (ha : ∀ (pw : Bool) (m v : List Char), a pw m = some v → HasNonWs v)
    (hb : ∀ (pw : Bool) (m v : List Char), b pw m = some v → HasNonWs v) :
    ∀ p ∈ [a, b], ∀ (pw : Bool) (m v : List Char), p pw m = some v → HasNonWs v := by
  intro p hp
  rcases List.mem_cons.mp hp with rfl | hp2
  · exact ha
  · rcases List.mem_cons.mp hp2 with rfl | hp3
    · exact hb
    · exact absurd hp3 (List.not_mem_nil p)

theorem nonWs3 (a b c : Bool → List Char → Option (List Char))
    (ha : ∀ (pw : Bool) (m v : List Char), a pw m = some v → HasNonWs v)
    (hb : ∀ (pw : Bool) (m v : List Char), b pw m = some v → HasNonWs v)
    (hc : ∀ (pw : Bool) (m v : List Char), c pw m = some v → HasNonWs v) :
    ∀ p ∈ [a, b, c], ∀ (pw : Bool) (m v : List Char), p pw m = some v → HasNonWs v := by
  intro p hp
  rcases List.mem_cons.mp hp with rfl | hp2
  · exact ha
  · rcases List.mem_cons.mp hp2 with rfl | hp3
    · exact hb
    · rcases List.mem_cons.mp hp3 with rfl | hp4
      · exact hc
      · exact absurd hp4 (List.not_mem_nil p)

/-- `_first_match` over patterns whose captures have non-whitespace content
yields a trimmed non-empty value or nothing. -/
theorem goodFM (pats : List (Bool → List Char → Option (List Char)))
    (hg : ∀ p ∈ pats, ∀ (pw : Bool) (m v : List Char), p pw m = some v → HasNonWs v)
    (cs : List Char) : GoodOpt (firstMatchF pats cs) :=
  fun s h => firstMatchF_good pats hg cs s h

/-- `_first_match` always yields a trimmed value or nothing. -/
theorem trimmedFM (pats : List (Bool → List Char → Option (List Char)))
    (cs : List Char) : TrimmedOpt (firstMatchF pats cs) :=
  fun s h => firstMatchF_trimmed pats cs s h

/-- `x or default` with a good optional and a good default is good. -/
theorem good_some_pyOr (a : Option String) (d : String)
    (ha : GoodOpt a) (hd1 : pyStrip d.data = d.data) (hd2 : d ≠ "") :
    GoodOpt (some (pyOr a d)) := by
  intro s h
  rw [Option.some_inj] at h
  subst h
  cases ha' : a with
  | none =>
    rw [pyOr_none]
    exact ⟨hd1, hd2⟩
  | some t =>
    rw [pyOr_some]
    by_cases ht : t = ""
    · rw [if_pos ht]
      exact ⟨hd1, hd2⟩
    · rw [if_neg ht]
      exact ha t ha'

/-- Python `x or y` on two good optionals is good. -/
theorem pyOrOpt_good (a b : Option String)
    (ha : GoodOpt a) (hb : GoodOpt b) : GoodOpt (pyOrOpt a b) := by
  intro s h
  cases ha' : a with
  | none =>
    rw [ha', pyOrOpt_none] at h
    exact hb s h
  | some t =>
    rw [ha', pyOrOpt_some] at h
    by_cases ht : t = ""
    · rw [if_pos ht] at h
      exact hb s h
    · rw [if_neg ht] at h
      rw [Option.some_inj] at h
      subst h
      exact ha t ha'

/-- C1: for every input text consisting of a recognized table header line
followed by the row `"Widget A  2  500.00  1000.00"`, the line-item extractor
(`invoice_parser.extract_line_items`, whose items carry the quantity string)
returns exactly one LineItem with description `"Widget A"`, quantity `"2"`,
unit_price `"500.00"`, line_total `"1000.00"`. -/
theorem claim1_header_then_widget_row (h : String)
    (hnb : ∀ c ∈ h.data, lineBreak c = false)
    (hdr : InvoiceParse.invHeaderPred (normLine h.data) = true) :
    InvoiceParse.extract_line_items (h ++ "\n" ++ "Widget A  2  500.00  1000.00") =
      [⟨"Widget A", "2", "500.00", "1000.00"⟩] := by
  have hdata : (h ++ "\n" ++ "Widget A  2  500.00  1000.00").data =
      h.data ++ '\n' :: ("Widget A  2  500.00  1000.00".data) := by
    rw [String.data_append, String.data_append, List.append_assoc]
    rfl
  have hlines : normLines (h ++ "\n" ++ "Widget A  2  500.00  1000.00") =
      [normLine h.data, normLine ("Widget A  2  500.00  1000.00".data)] := by
    unfold normLines pySplitLines
    rw [hdata, splitLinesGo_append h.data hnb]
    rw [show splitLinesGo [] ("Widget A  2  500.00  1000.00".data) =
        [("Widget A  2  500.00  1000.00".data)] from by decide]
    simp
  unfold InvoiceParse.extract_line_items
  rw [hlines]
  rw [show findIdxO InvoiceParse.invHeaderPred
      [normLine h.data, normLine ("Widget A  2  500.00  1000.00".data)] = some 0 from by
    rw [findIdxO, if_pos hdr]]
  show InvoiceParse.invProcess
    ([normLine h.data, normLine ("Widget A  2  500.00  1000.00".data)].drop 1) = _
  rw [show ([normLine h.data, normLine ("Widget A  2  500.00  1000.00".data)]).drop 1 =
      [normLine ("Widget A  2  500.00  1000.00".data)] from rfl]
  decide

/-- Witness for C1 at a concrete header line. -/
theorem claim1_witness :
    InvoiceParse.extract_line_items
        ("Description Qty Unit Price Total" ++ "\n" ++ "Widget A  2  500.00  1000.00") =
      [⟨"Widget A", "2", "500.00", "1000.00"⟩] :=
  claim1_header_then_widget_row "Description Qty Unit Price Total" (by decide) (by decide)

/-- C2 counterexample: the first line contains a "description" token and a
"quantity" token, and the rows after it would parse into an item, yet the
extractor returns nothing: the code requires the literal substring "qty",
which "quantity" does not contain. -/
theorem claim2_counterexample :
    containsSub ("description".data)
      (lowerL (normLine ("Description Quantity".data))) = true ∧
    containsSub ("quantity".data)
      (lowerL (normLine ("Description Quantity".data))) = true ∧
    InvoiceParse.extract_line_items
      "Description Quantity\nWidget Gadget 2 500.00 1000.00" = [] ∧
    InvoiceParse.invProcess
        ((normLines "Description Quantity\nWidget Gadget 2 500.00 1000.00").drop 1) =
      [⟨"Widget Gadget", "2", "500.00", "1000.00"⟩] := by
  refine ⟨by decide, by decide, by decide, by decide⟩

/-- C2 (amended): the first line scanned top-down that contains both
"description" and "qty" as case-insensitive substrings is the table header,
and line-item parsing proceeds over the lines after it; no stronger condition
on the header line is required. -/
theorem claim2_first_qty_line_is_header (text : String) (i : Nat)
    (hex : ∃ l, (normLines text)[i]? = some l ∧ InvoiceParse.invHeaderPred l = true)
    (hmin : ∀ j, j < i → ∀ l, (normLines text)[j]? = some l →
      InvoiceParse.invHeaderPred l = false) :
    InvoiceParse.extract_line_items text =
      InvoiceParse.invProcess ((normLines text).drop (i + 1)) := by
  unfold InvoiceParse.extract_line_items
  rw [findIdxO_eq_some hex hmin]

/-- Witness for the amended C2. -/
theorem claim2_witness :
    InvoiceParse.extract_line_items "Description Qty\nWidget Gadget 2 500.00 1000.00" =
      InvoiceParse.invProcess
        ((normLines "Description Qty\nWidget Gadget 2 500.00 1000.00").drop 1) :=
  claim2_first_qty_line_is_header _ 0
    ⟨normLine ("Description Qty".data), by decide, by decide⟩
    (by intro j hj; omega)

/-- C8: a table line with exactly one monetary token emits no LineItem; it
only becomes the pending continuation line. -/
theorem claim8_single_money_token (line pending : List Char)
    (rest : List (List Char))
    (hne : line ≠ []) (hterm : TextParse.tpTerminal line = false)
    (hone : (moneyFindAll line).length = 1) :
    TextParse.processTP (line :: rest) pending = TextParse.processTP rest line :=
  TextParse.processTP_cons_pending hne hterm (by omega)

/-- Witness for C8 on the spec's example line. -/
theorem claim8_witness :
    TextParse.processTP [("Shipping Fee 500.00".data)] [] =
      TextParse.processTP [] ("Shipping Fee 500.00".data) :=
  claim8_single_money_token _ _ _ (by decide) (by decide) (by decide)

/-- C9: when no line contains both a "description" token and a "qty" token,
both line-item extractors return the empty sequence. -/
theorem claim9_no_header_empty (text : String)
    (hno : ∀ l ∈ normLines text,
      ¬(containsSub ("description".data) (lowerL l) = true ∧
        containsSub ("qty".data) (lowerL l) = true)) :
    TextParse.extract_line_items text = [] ∧
    InvoiceParse.extract_line_items text = [] := by
  constructor
  · have h0 : findIdxO TextParse.headerLine (normLines text) = none := by
      apply findIdxO_eq_none
      intro l hl
      by_contra hc
      rw [Bool.not_eq_false] at hc
      exact hno l hl (TextParse.headerLine_contains hc)
    unfold TextParse.extract_line_items
    rw [h0]
  · have h0 : findIdxO InvoiceParse.invHeaderPred (normLines text) = none := by
      apply findIdxO_eq_none
      intro l hl
      by_contra hc
      rw [Bool.not_eq_false] at hc
      unfold InvoiceParse.invHeaderPred at hc
      rw [Bool.and_eq_true] at hc
      exact hno l hl hc
    unfold InvoiceParse.extract_line_items
    rw [h0]

/-- Witness for C9. -/
theorem claim9_witness :
    TextParse.extract_line_items "Hello World\nTotal 9.99" = [] ∧
    InvoiceParse.extract_line_items "Hello World\nTotal 9.99" = [] :=
  claim9_no_header_empty _ (by decide)

/-- C4 counterexample: a text containing both required substrings where an
earlier balance-due label wins, so `total_amount` is not `"135,000.00"`. -/
theorem claim4_counterexample :
    containsSub ("Balance Due 135,000.00".data)
      ("Balance Due 99.00 Balance Due 135,000.00 Grand Total 150,000.00".data) = true ∧
    containsSub ("Grand Total 150,000.00".data)
      ("Balance Due 99.00 Balance Due 135,000.00 Grand Total 150,000.00".data) = true ∧
    (InvoiceParse.parse_invoice_text
        "Balance Due 99.00 Balance Due 135,000.00 Grand Total 150,000.00").total_amount =
      some "99.00" ∧
    (InvoiceParse.parse_invoice_text
        "Balance Due 99.00 Balance Due 135,000.00 Grand Total 150,000.00").total_amount ≠
      some "135,000.00" := by
  refine ⟨by decide, by decide, by decide, by decide⟩

/-- C4 (amended): whenever the labeled balance-due search succeeds, its value
is `total_amount`: the balance-due value always takes precedence over the
generic total/grand-total/amount-due patterns. -/
theorem claim4_balance_due_precedence (t : String) (v : String)
    (hb : InvoiceParse.firstMatchF [InvoiceParse.balanceAt]
      (collapseRuns InvoiceParse.spaceTab t.data) = some v) :
    (InvoiceParse.parse_invoice_text t).total_amount = some v := by
  have hgood := InvoiceParse.firstMatchF_good [InvoiceParse.balanceAt]
    (by
      intro p hp pw m w hw
      simp only [List.mem_cons, List.not_mem_nil, or_false] at hp
      subst hp
      exact InvoiceParse.balanceAt_nonWs hw) _ _ hb
  show pyOrOpt (InvoiceParse.firstMatchF [InvoiceParse.balanceAt]
      (collapseRuns InvoiceParse.spaceTab t.data))
    (InvoiceParse.firstMatchF [InvoiceParse.totalP1, InvoiceParse.totalP2]
      (collapseRuns InvoiceParse.spaceTab t.data)) = some v
  rw [hb]
  unfold pyOrOpt
  simp only
  rw [if_neg hgood.2]

/-- Witness for the amended C4 on the spec's own example values. -/
theorem claim4_witness :
    (InvoiceParse.parse_invoice_text
        "Balance Due 135,000.00 Grand Total 150,000.00").total_amount =
      some "135,000.00" :=
  claim4_balance_due_precedence _ "135,000.00" (by decide)

/-- C5: on every input string the extractors return a result without raising:
the exception-aware models (where `float()` may fail and the source's
`try/except` is the handler) always return `Except.ok` of the total result. -/
theorem claim5_never_raises (t : String) :
    TextParse.extract_line_itemsE t = Except.ok (TextParse.extract_line_items t) ∧
    InvoiceParse.parse_invoice_textE t = Except.ok (InvoiceParse.parse_invoice_text t) :=
  ⟨TextParse.extract_line_itemsE_ok t, rfl⟩

/-- C6: a pending continuation line is prepended to the next row's
description joined by a single space; the emitted item's description contains
both fragments, and the minimum-length check applies to the joined
description. -/
theorem claim6_continuation_join (line pending c : List Char)
    (rest : List (List Char)) (totTok unitTok : List Char) (more : List (List Char))
    (hne : line ≠ []) (hterm : TextParse.tpTerminal line = false)
    (hrev : (moneyFindAll line).reverse = totTok :: unitTok :: more)
    (hc : TextParse.currentDescOf line = c) (hpne : pending ≠ []) (hcne : c ≠ [])
    (hstrip : pyStrip (pending ++ ' ' :: c) = pending ++ ' ' :: c)
    (has : endsWithL (" as".data) (lowerL (pending ++ ' ' :: c)) = false) :
    (10 ≤ (pending ++ ' ' :: c).length →
      ∃ u t, TextParse.processTP (line :: rest) pending =
        ⟨String.mk (pending ++ ' ' :: c), u, t⟩ :: TextParse.processTP rest pending ∧
        containsSub pending (pending ++ ' ' :: c) = true ∧
        containsSub c (pending ++ ' ' :: c) = true) ∧
    ((pending ++ ' ' :: c).length < 10 →
      TextParse.processTP (line :: rest) pending = TextParse.processTP rest pending) := by
  have hrd : TextParse.rowDesc line pending = pending ++ ' ' :: c :=
    TextParse.rowDesc_join hc hpne hcne hstrip has
  have hstep := @TextParse.processTP_cons_row line rest pending totTok unitTok more
    hne hterm hrev
  constructor
  · intro hlen
    have hu : (toCents (TextParse.commaFree unitTok)).isSome = true := by
      apply moneyFindAll_wf
      apply List.mem_reverse.mp
      rw [hrev]
      simp
    have ht : (toCents (TextParse.commaFree totTok)).isSome = true := by
      apply moneyFindAll_wf
      apply List.mem_reverse.mp
      rw [hrev]
      simp
    obtain ⟨u, t, hre⟩ := TextParse.rowEmit_some_of (by rw [hrd]; omega) hu ht
    rw [hrd] at hre
    refine ⟨u, t, ?_, ?_, ?_⟩
    · rw [hstep, hre]
    · exact containsSub_of_exists [] (' ' :: c) (by simp)
    · exact containsSub_of_exists (pending ++ [' ']) [] (by simp)
  · intro hlen
    have hre : TextParse.rowEmit line pending unitTok totTok = none :=
      TextParse.rowEmit_none_short (by rw [hrd]; omega)
    rw [hstep, hre]

/-- Witness for C6 on the spec's split-description example. -/
theorem claim6_witness :
    ∃ u t, TextParse.processTP [("ing Services 200.00 200.00".data)]
        ("Premium Consult-".data) =
      ⟨String.mk (("Premium Consult-".data) ++ ' ' :: ("ing Services".data)), u, t⟩ ::
        TextParse.processTP [] ("Premium Consult-".data) ∧
      containsSub ("Premium Consult-".data)
        (("Premium Consult-".data) ++ ' ' :: ("ing Services".data)) = true ∧
      containsSub ("ing Services".data)
        (("Premium Consult-".data) ++ ' ' :: ("ing Services".data)) = true :=
  (claim6_continuation_join ("ing Services 200.00 200.00".data)
      ("Premium Consult-".data) ("ing Services".data) [] ("200.00".data) ("200.00".data) []
      (by decide) (by decide) (by decide) (by decide) (by decide) (by decide)
      (by decide) (by decide)).1 (by decide)

/-- C7: the pending continuation line is never cleared after use: it is
prepended to the description of each of the two following parsed rows, and
remains the pending line for the rest of the table. -/
theorem claim7_pending_not_cleared (l1 l2 c1 c2 pending : List Char)
    (rest : List (List Char))
    (t1 u1 : List Char) (m1 : List (List Char))
    (t2 u2 : List Char) (m2 : List (List Char))
    (hne1 : l1 ≠ []) (hterm1 : TextParse.tpTerminal l1 = false)
    (hrev1 : (moneyFindAll l1).reverse = t1 :: u1 :: m1)
    (hcd1 : TextParse.currentDescOf l1 = c1) (hc1ne : c1 ≠ [])
    (hne2 : l2 ≠ []) (hterm2 : TextParse.tpTerminal l2 = false)
    (hrev2 : (moneyFindAll l2).reverse = t2 :: u2 :: m2)
    (hcd2 : TextParse.currentDescOf l2 = c2) (hc2ne : c2 ≠ [])
    (hpne : pending ≠ [])
    (hstrip1 : pyStrip (pending ++ ' ' :: c1) = pending ++ ' ' :: c1)
    (has1 : endsWithL (" as".data) (lowerL (pending ++ ' ' :: c1)) = false)
    (hlen1 : 10 ≤ (pending ++ ' ' :: c1).length)
    (hstrip2 : pyStrip (pending ++ ' ' :: c2) = pending ++ ' ' :: c2)
    (has2 : endsWithL (" as".data) (lowerL (pending ++ ' ' :: c2)) = false)
    (hlen2 : 10 ≤ (pending ++ ' ' :: c2).length) :
    ∃ q1 r1 q2 r2, TextParse.processTP (l1 :: l2 :: rest) pending =
      ⟨String.mk (pending ++ ' ' :: c1), q1, r1⟩ ::
      ⟨String.mk (pending ++ ' ' :: c2), q2, r2⟩ ::
      TextParse.processTP rest pending := by
  have hrd1 : TextParse.rowDesc l1 pending = pending ++ ' ' :: c1 :=
    TextParse.rowDesc_join hcd1 hpne hc1ne hstrip1 has1
  have hrd2 : TextParse.rowDesc l2 pending = pending ++ ' ' :: c2 :=
    TextParse.rowDesc_join hcd2 hpne hc2ne hstrip2 has2
  have hu1 : (toCents (TextParse.commaFree u1)).isSome = true := by
    apply moneyFindAll_wf
    apply List.mem_reverse.mp
    rw [hrev1]
    simp
  have ht1 : (toCents (TextParse.commaFree t1)).isSome = true := by
    apply moneyFindAll_wf
    apply List.mem_reverse.mp
    rw [hrev1]
    simp
  have hu2 : (toCents (TextParse.commaFree u2)).isSome = true := by
    apply moneyFindAll_wf
    apply List.mem_reverse.mp
    rw [hrev2]
    simp
  have ht2 : (toCents (TextParse.commaFree t2)).isSome = true := by
    apply moneyFindAll_wf
    apply List.mem_reverse.mp
    rw [hrev2]
    simp
  obtain ⟨q1, r1, hre1⟩ := @TextParse.rowEmit_some_of l1 pending u1 t1
    (by rw [hrd1]; omega) hu1 ht1
  obtain ⟨q2, r2, hre2⟩ := @TextParse.rowEmit_some_of l2 pending u2 t2
    (by rw [hrd2]; omega) hu2 ht2
  rw [hrd1] at hre1
  rw [hrd2] at hre2
  refine ⟨q1, r1, q2, r2, ?_⟩
  rw [TextParse.processTP_cons_row hne1 hterm1 hrev1, hre1]
  rw [TextParse.processTP_cons_row hne2 hterm2 hrev2, hre2]

/-- Witness for C7: the same pending line is prepended to two consecutive
rows. -/
theorem claim7_witness :
    ∃ q1 r1 q2 r2, TextParse.processTP
        [("ing Services 200.00 200.00".data), ("extra Cleanup 10.00 10.00".data)]
        ("Premium Consult-".data) =
      ⟨String.mk (("Premium Consult-".data) ++ ' ' :: ("ing Services".data)), q1, r1⟩ ::
      ⟨String.mk (("Premium Consult-".data) ++ ' ' :: ("extra Cleanup".data)), q2, r2⟩ ::
      TextParse.processTP [] ("Premium Consult-".data) :=
  claim7_pending_not_cleared ("ing Services 200.00 200.00".data)
    ("extra Cleanup 10.00 10.00".data) ("ing Services".data) ("extra Cleanup".data)
    ("Premium Consult-".data) [] ("200.00".data) ("200.00".data) []
    ("10.00".data) ("10.00".data) []
    (by decide) (by decide) (by decide) (by decide) (by decide)
    (by decide) (by decide) (by decide) (by decide) (by decide)
    (by decide) (by decide) (by decide) (by decide) (by decide)
    (by decide) (by decide)

/-- C3 counterexample: on input `"Branch: 5"` the extractor assigns the empty
string (after trimming a captured single space) to `branch`, so an attribute
can be the empty string. -/
theorem claim3_counterexample :
    (InvoiceParse.parse_invoice_text "Branch: 5").branch = some "" := by decide

/-- C3 (amended): every attribute of the returned record is either absent or
a trimmed string; every assigned attribute except `branch` is moreover
non-empty when present, while `branch` is trimmed but may be empty; the
never-assigned address/email/phone attributes are always absent. -/
theorem claim3_fields_trimmed_branch_may_be_empty (t : String) :
    GoodOpt (parse_invoice_text t).invoice_number ∧
    GoodOpt (parse_invoice_text t).invoice_date ∧
    GoodOpt (parse_invoice_text t).invoice_status ∧
    GoodOpt (parse_invoice_text t).subtotal ∧
    GoodOpt (parse_invoice_text t).discount ∧
    GoodOpt (parse_invoice_text t).tax_rate ∧
    GoodOpt (parse_invoice_text t).total_tax ∧
    GoodOpt (parse_invoice_text t).balance_due ∧
    GoodOpt (parse_invoice_text t).total_amount ∧
    GoodOpt (parse_invoice_text t).currency ∧
    GoodOpt (parse_invoice_text t).supplier_name ∧
    (parse_invoice_text t).supplier_address = none ∧
    (parse_invoice_text t).supplier_email = none ∧
    (parse_invoice_text t).supplier_phone = none ∧
    GoodOpt (parse_invoice_text t).customer_name ∧
    (parse_invoice_text t).billing_address = none ∧
    (parse_invoice_text t).shipping_address = none ∧
    GoodOpt (parse_invoice_text t).payment_terms ∧
    GoodOpt (parse_invoice_text t).bank_name ∧
    TrimmedOpt (parse_invoice_text t).branch ∧
    GoodOpt (parse_invoice_text t).account_number ∧
    GoodOpt (parse_invoice_text t).payment_instructions := by
  refine ⟨?_, ?_, ?_, ?_, ?_, ?_, ?_, ?_, ?_, ?_, ?_, rfl, rfl, rfl, ?_, rfl, rfl,
    ?_, ?_, ?_, ?_, ?_⟩
  · show GoodOpt (firstMatchF [invNoP1, invNoP2, invNoP3] (collapseRuns spaceTab t.data))
    exact goodFM _ (nonWs3 invNoP1 invNoP2 invNoP3
      (fun _ _ _ h => invNoP1_nonWs h) (fun _ _ _ h => invNoP2_nonWs h)
      (fun _ _ _ h => invNoP3_nonWs h)) _
  · show GoodOpt (firstMatchF [dateP1, dateP2] (collapseRuns spaceTab t.data))
    exact goodFM _ (nonWs2 dateP1 dateP2
      (fun _ _ _ h => dateP1_nonWs h) (fun _ _ _ h => dateP2_nonWs h)) _
  · show GoodOpt (some (pyOr (firstMatchF [statusAt] (collapseRuns spaceTab t.data)) "UNPAID"))
    exact good_some_pyOr _ _
      (goodFM _ (nonWs1 statusAt (fun _ _ _ h => statusAt_nonWs h)) _)
      (by decide) (by decide)
  · show GoodOpt (firstMatchF [subtotalAt] (collapseRuns spaceTab t.data))
    exact goodFM _ (nonWs1 subtotalAt (fun _ _ _ h => subtotalAt_nonWs h)) _
  · show GoodOpt (firstMatchF [discountAt] (collapseRuns spaceTab t.data))
    exact goodFM _ (nonWs1 discountAt (fun _ _ _ h => discountAt_nonWs h)) _
  · show GoodOpt (firstMatchF [taxRateAt] (collapseRuns spaceTab t.data))
    exact goodFM _ (nonWs1 taxRateAt (fun _ _ _ h => taxRateAt_nonWs h)) _
  · show GoodOpt (firstMatchF [totalTaxAt] (collapseRuns spaceTab t.data))
    exact goodFM _ (nonWs1 totalTaxAt (fun _ _ _ h => totalTaxAt_nonWs h)) _
  · show GoodOpt (firstMatchF [balanceAt] (collapseRuns spaceTab t.data))
    exact goodFM _ (nonWs1 balanceAt (fun _ _ _ h => balanceAt_nonWs h)) _
  · show GoodOpt (pyOrOpt (firstMatchF [balanceAt] (collapseRuns spaceTab t.data))
      (firstMatchF [totalP1, totalP2] (collapseRuns spaceTab t.data)))
    exact pyOrOpt_good _ _
      (goodFM _ (nonWs1 balanceAt (fun _ _ _ h => balanceAt_nonWs h)) _)
      (goodFM _ (nonWs2 totalP1 totalP2
        (fun _ _ _ h => totalP1_nonWs h) (fun _ _ _ h => totalP2_nonWs h)) _)
  · show GoodOpt (firstMatchF [curP1, curP2, curP3] (collapseRuns spaceTab t.data))
    exact goodFM _ (nonWs3 curP1 curP2 curP3
      (fun _ _ _ h => curP1_nonWs h) (fun _ _ _ h => curP2_nonWs h)
      (fun _ _ _ h => curP3_nonWs h)) _
  · show GoodOpt (firstMatchF [supP1, supP2] (collapseRuns spaceTab t.data))
    exact goodFM _ (nonWs2 supP1 supP2
      (fun _ _ _ h => supP1_nonWs h) (fun _ _ _ h => supP2_nonWs h)) _
  · show GoodOpt (firstMatchF [custAt] (collapseRuns spaceTab t.data))
    exact goodFM _ (nonWs1 custAt (fun _ _ _ h => custAt_nonWs h)) _
  · show GoodOpt (firstMatchF [termsP1, termsP2] (collapseRuns spaceTab t.data))
    exact goodFM _ (nonWs2 termsP1 termsP2
      (fun _ _ _ h => termsP1_nonWs h) (fun _ _ _ h => termsP2_nonWs h)) _
  · show GoodOpt (firstMatchF [bankAt] (collapseRuns spaceTab t.data))
    exact goodFM _ (nonWs1 bankAt (fun _ _ _ h => bankAt_nonWs h)) _
  · show TrimmedOpt (firstMatchF [branchP1, branchP2] (collapseRuns spaceTab t.data))
    exact trimmedFM _ _
  · show GoodOpt (firstMatchF [accountAt] (collapseRuns spaceTab t.data))
    exact goodFM _ (nonWs1 accountAt (fun _ _ _ h => accountAt_nonWs h)) _
  · show GoodOpt (firstMatchF [payInstrAt] t.data)
    exact goodFM _ (nonWs1 payInstrAt (fun _ _ _ h => payInstrAt_nonWs h)) _

/-- Witness for the amended C3: the `total_amount` attribute extracted from a
concrete input is trimmed and non-empty. -/
theorem claim3_witness :
    pyStrip ("5.00" : String).data = ("5.00" : String).data ∧ ("5.00" : String) ≠ "" :=
  (claim3_fields_trimmed_branch_may_be_empty "Total: 5.00").2.2.2.2.2.2.2.2.1
    "5.00" (by decide)

/-- C10: if no status keyword (paid/unpaid/overdue/cancelled) occurs
case-insensitively as a word anywhere in the normalized text, the status is
the `"UNPAID"` default; and when some keyword does occur, the keyword at the
least occurrence position is returned (its text as found, lowercasing to the
keyword). -/
theorem claim10_status_default_or_first_keyword (t : String) :
    ((∀ i, i ≤ (collapseRuns spaceTab t.data).length → ∀ kw ∈ statusKws,
        kwOccursAtB (collapseRuns spaceTab t.data) i kw = false) →
      (parse_invoice_text t).invoice_status = some "UNPAID") ∧
    (∀ (i : Nat) (kw : List Char), kw ∈ statusKws →
      kwOccursAtB (collapseRuns spaceTab t.data) i kw = true →
      (∀ j, j < i → ∀ kw2 ∈ statusKws,
        kwOccursAtB (collapseRuns spaceTab t.data) j kw2 = false) →
      ∃ r : String, (parse_invoice_text t).invoice_status = some r ∧
        r ≠ "" ∧ lowerL r.data = kw) := by
  constructor
  · intro hno
    have hnone : searchA statusAt false (collapseRuns spaceTab t.data) = none := by
      cases hs : searchA statusAt false (collapseRuns spaceTab t.data) with
      | none => rfl
      | some v =>
        exfalso
        obtain ⟨i, hi, hfi⟩ := searchA_some_exists hs
        obtain ⟨kw, hkw, hocc, -, -⟩ := occurs_of_statusAt_some hfi
        rw [hno i hi kw hkw] at hocc
        exact Bool.false_ne_true hocc
    have hfm : firstMatchF [statusAt] (collapseRuns spaceTab t.data) = none := by
      rw [firstMatchF, hnone]
      rfl
    show some (pyOr (firstMatchF [statusAt] (collapseRuns spaceTab t.data)) "UNPAID") =
      some "UNPAID"
    rw [hfm]
    rfl
  · intro i kw hkw hocc hmin
    have hkne : kw ≠ [] := statusKws_ne_nil kw hkw
    have hlt : i < (collapseRuns spaceTab t.data).length := occurs_lt_length hkne hocc
    have hfi := statusAt_of_occurs hkw hocc
    have hminN : ∀ j, j < i → statusAt (pwAt false (collapseRuns spaceTab t.data) j)
        ((collapseRuns spaceTab t.data).drop j) = none := by
      intro j hj
      cases hs : statusAt (pwAt false (collapseRuns spaceTab t.data) j)
          ((collapseRuns spaceTab t.data).drop j) with
      | none => rfl
      | some w =>
        exfalso
        obtain ⟨kw2, hkw2, hocc2, -, -⟩ := occurs_of_statusAt_some hs
        rw [hmin j hj kw2 hkw2] at hocc2
        exact Bool.false_ne_true hocc2
    have hsearch : searchA statusAt false (collapseRuns spaceTab t.data) =
        some (((collapseRuns spaceTab t.data).drop i).take kw.length) :=
      searchA_eq_some_iff.mpr ⟨i, by omega, hfi, hminN⟩
    have hbeq : lowerL (((collapseRuns spaceTab t.data).drop i).take kw.length) = kw := by
      have h1 := hocc
      unfold kwOccursAtB at h1
      rw [Bool.and_eq_true, Bool.and_eq_true] at h1
      exact eq_of_beq h1.1.1
    have hstrip : pyStrip (((collapseRuns spaceTab t.data).drop i).take kw.length) =
        ((collapseRuns spaceTab t.data).drop i).take kw.length :=
      strip_id_of_lower_nonws hbeq (statusKws_nonws kw hkw)
    have hvne : ((collapseRuns spaceTab t.data).drop i).take kw.length ≠ [] := by
      intro h0
      rw [h0] at hbeq
      exact hkne ((show ([] : List Char) = kw from hbeq).symm)
    have hne : String.mk (((collapseRuns spaceTab t.data).drop i).take kw.length) ≠ "" := by
      intro h0
      exact hvne (congrArg String.data h0)
    refine ⟨String.mk (((collapseRuns spaceTab t.data).drop i).take kw.length), ?_, hne, hbeq⟩
    show some (pyOr (firstMatchF [statusAt] (collapseRuns spaceTab t.data)) "UNPAID") = _
    rw [firstMatchF]
    simp only [hsearch]
    rw [hstrip, pyOr_some, if_neg hne]

/-- Witness for C10: a keyword-free text defaults to `"UNPAID"`, and the first
keyword occurrence (here `"PAID"` at position 8) is returned. -/
theorem claim10_witness :
    (parse_invoice_text "hello world").invoice_status = some "UNPAID" ∧
    ∃ r : String, (parse_invoice_text "Invoice PAID thanks").invoice_status = some r ∧
      r ≠ "" ∧ lowerL r.data = ("paid".data) :=
  ⟨(claim10_status_default_or_first_keyword "hello world").1 (by decide),
   (claim10_status_default_or_first_keyword "Invoice PAID thanks").2 8 ("paid".data)
     (by decide) (by decide) (by decide)⟩
